import Mathlib

/-!
Shallow embedding of the LD-clustering core of `cdpybio` (`src/cdpybio/analysis.py`,
functions `ld_prune` and `ld_expand`) together with proofs about it.

Modelling conventions:
* A pandas row of the variant table is a `Variant`; the documented index label
  `chrom:pos` (`'{}:{}'.format(chrom, x)`, with `x` printed as a decimal integer)
  is modelled as the pair `(chrom, pos)`, which the string formatting represents
  injectively for colon-free chromosome names.
* The tabix handle for a chromosome is modelled as the query function itself:
  `query chrom start stop` returns `none` when tabix raises `TabixError`
  ("region/chromosome not found") and `some records` for a successful query,
  `records` being the finite list the result iterator yields before
  `StopIteration`.
* A raised Python exception is modelled by `Except.error`: `valueError` for a
  failed 3-way unpack of `n[-1].split(':')` or a failed `float()` / `int()`
  conversion, and `nameError` for the evaluation of the unbound name
  `TabixError` in `ld_prune`'s `except TabixError:` clause (the module imports
  `tabix` but never binds `TabixError`, so handling the exception raises
  `NameError` and aborts the call).  In `ld_prune` every exception of the
  outer `try` reaches that clause — the query's `TabixError` and equally a
  record's parse `ValueError`, which the inner `except StopIteration:` does
  not catch — so on both paths the call aborts with `NameError`, the original
  exception being replaced while it is handled.  Only `ld_expand`, whose
  handler `except tabix.TabixError:` is well formed, lets the parse
  `ValueError` itself escape.
* Python `float` values appearing here (r-squared values, p-values) are modelled
  as rationals; `float(...)` string conversion is modelled by `pyFloat?`, a
  parser for decimal/scientific literals (the forms occurring in LD bed files).
* The iteration order of a CPython `set` is implementation defined.  The only
  place it influences the result set of `ld_prune` is the order of
  `ind = list(set(t.columns) & set(t.index))`; that order is therefore taken as
  an explicit parameter `pi` of the model, constrained by `validOrder` to be
  some duplicate-free enumeration of the intersection.
* `df.ix[keep]` (selection of the rows whose label lies in the set `keep`) is
  modelled as a filter of the table in table order; the selected row *set* is
  what the claims are about.
-/

namespace Cdpybio

/-- Python exceptions that the modelled code can raise. -/
inductive PyErr where
  | nameError
  | valueError
  deriving DecidableEq, Repr

instance {ε α : Type} [DecidableEq ε] [DecidableEq α] :
    DecidableEq (Except ε α) := fun a b =>
  match a, b with
  | .error e, .error e' =>
    if h : e = e' then isTrue (by rw [h])
    else isFalse (by intro hc; cases hc; exact h rfl)
  | .ok x, .ok y =>
    if h : x = y then isTrue (by rw [h])
    else isFalse (by intro hc; cases hc; exact h rfl)
  | .error _, .ok _ => isFalse (by intro hc; cases hc)
  | .ok _, .error _ => isFalse (by intro hc; cases hc)

/-- One record yielded by a tabix query result iterator: the tuple of its
    tab-separated fields.  The code reads `n[0]` and `n[-1]`. -/
structure LDRecord where
  fields : List String
  deriving DecidableEq, Repr

/-- `n[0]` of a record (tabix records are never empty). -/
def LDRecord.f0 (n : LDRecord) : String := n.fields.headD ""

/-- `n[-1]` of a record. -/
def LDRecord.flast (n : LDRecord) : String := n.fields.getLastD ""

/-- A per-chromosome LD source: the opened tabix handle, modelled as its query
    function. `none` models a raised `TabixError`. -/
abbrev LDSource := String → Int → Int → Option (List LDRecord)

/-- A row of the variant table: columns `chrom` and `end` (the 1-based
    position, here `pos`) and `pvalue`; `start = end - 1` and `rsid` are never
    read by `ld_prune`/`ld_expand` and are omitted. -/
structure Variant where
  chrom : String
  pos : Int
  pvalue : ℚ
  deriving DecidableEq, Repr

/-- The index label `chrom:pos` of a row, as a pair. -/
abbrev VKey := String × Int

/-- Index label of a variant row. -/
def keyOf (v : Variant) : VKey := (v.chrom, v.pos)

/-! ### Parsing: `n[-1].split(':')`, `float(r2)`, `int(p2)` -/

/-- Python `str.split(sep)` on a single character, over the character list. -/
def splitOnChar (sep : Char) : List Char → List (List Char)
  | [] => [[]]
  | c :: cs =>
    if c = sep then [] :: splitOnChar sep cs
    else
      match splitOnChar sep cs with
      | [] => [[c]]
      | g :: gs => (c :: g) :: gs

/-- Numeric value of a digit string. -/
def digitsVal (cs : List Char) : Nat :=
  cs.foldl (fun a c => a * 10 + (c.toNat - 48)) 0

/-- Parse a nonempty all-digit string. -/
def digitsVal? (cs : List Char) : Option Nat :=
  if cs ≠ [] ∧ cs.all (·.isDigit) then some (digitsVal cs) else none

/-- Strip an optional leading sign, returning whether it was `-`. -/
def signSplit : List Char → Bool × List Char
  | '+' :: cs => (false, cs)
  | '-' :: cs => (true, cs)
  | cs => (false, cs)

/-- Value of an unsigned decimal mantissa `digits`, `digits.digits`,
    `.digits` or `digits.` (Python accepts all four), as an unreduced
    fraction numerator/denominator. -/
def mantissaParts? (cs : List Char) : Option (Nat × Nat) :=
  let ip := cs.takeWhile (· ≠ '.')
  let rest := cs.dropWhile (· ≠ '.')
  match rest with
  | [] => (digitsVal? ip).map (fun n => (n, 1))
  | '.' :: fp =>
    if (ip = [] ∧ fp = []) then none
    else if ip.all (·.isDigit) ∧ fp.all (·.isDigit) then
      some (digitsVal ip * 10 ^ fp.length + digitsVal fp, 10 ^ fp.length)
    else none
  | _ => none

/-- Model of Python `float(s)` on finite decimal / scientific literals (the
    forms LD bed files contain), as the exact rational value of the literal;
    returns `none` where `float` raises `ValueError`. -/
def pyFloat? (s : String) : Option ℚ :=
  let (neg, cs) := signSplit s.toList
  let mant := cs.takeWhile (fun c => ¬ (c = 'e' ∨ c = 'E'))
  let rest := cs.dropWhile (fun c => ¬ (c = 'e' ∨ c = 'E'))
  let parts? : Option (Nat × Nat) :=
    match rest with
    | [] => mantissaParts? mant
    | _ :: ex =>
      let (eneg, ed) := signSplit ex
      match mantissaParts? mant, digitsVal? ed with
      | some nd, some e =>
        some (if eneg then (nd.1, nd.2 * 10 ^ e) else (nd.1 * 10 ^ e, nd.2))
      | _, _ => none
  parts?.map (fun nd =>
    mkRat (if neg then -(nd.1 : Int) else (nd.1 : Int)) nd.2)

/-- Model of Python `int(s)`; `none` where `int` raises `ValueError`. -/
def pyInt? (s : String) : Option Int :=
  let (neg, cs) := signSplit s.toList
  (digitsVal? cs).map (fun n => if neg then -(n : Int) else (n : Int))

/-- Processing of one record's trailing field, shared verbatim by `ld_prune`
    and `ld_expand`:
    `p1, p2, r2 = n[-1].split(':')` (ValueError unless exactly three parts),
    then `if float(r2) >= 0.8:` (ValueError if `r2` is not a float), and only
    inside that branch `int(p2)` (ValueError if not an int).  Returns
    `some p2` when the record qualifies, `none` when `r2 < 0.8`. -/
def parseLast (s : String) : Except PyErr (Option Int) :=
  match (splitOnChar ':' s.toList).map (fun cs => String.mk cs) with
  | [_, p2s, r2s] =>
    match pyFloat? r2s with
    | none => .error .valueError
    | some r2 =>
      if mkRat 4 5 ≤ r2 then
        match pyInt? p2s with
        | none => .error .valueError
        | some p2 => .ok (some p2)
      else .ok none
  | _ => .error .valueError

/-- Fold of the inner `while True: n = r.next() ...` loop of `ld_prune`: the
    qualifying partner positions of one queried position, in record order. -/
def collectPartners (recs : List LDRecord) : Except PyErr (List Int) :=
  recs.foldlM
    (fun acc n =>
      match parseLast n.flast with
      | .error e => .error e
      | .ok none => .ok acc
      | .ok (some p2) => .ok (acc ++ [p2]))
    []

/-! ### The `ld_d` dictionary -/

/-- Association-list model of the Python dict `ld_d` (position to qualifying
    partners). -/
abbrev LDDict := List (Int × List Int)

/-- `d[k] = v`: insert-or-replace. -/
def dictInsert (k : Int) (v : List Int) : LDDict → LDDict
  | [] => [(k, v)]
  | (k', v') :: rest =>
    if k = k' then (k, v) :: rest else (k', v') :: dictInsert k v rest

/-- Lookup with the empty list for a missing key (only performed on present
    keys by the modelled code). -/
def dictGet (d : LDDict) (k : Int) : List Int :=
  ((d.find? (fun e => e.1 == k)).map (fun e => e.2)).getD []

/-- One iteration of `for j in tdf.index:` in `ld_prune`: set `ld_d[p] = []`,
    query tabix, and fill in the qualifying partners.  Every exception raised
    inside the outer `try` — the `TabixError` from the query as well as the
    `ValueError` from a malformed record (the inner handler catches only
    `StopIteration`) — reaches `except TabixError:`, whose evaluation of the
    unbound name `TabixError` raises `NameError`, replacing the original
    exception. -/
def ld_d_step (f : LDSource) (chrom : String) (d : LDDict) (v : Variant) :
    Except PyErr LDDict :=
  let d0 := dictInsert v.pos [] d
  match f chrom (v.pos - 1) v.pos with
  | none => .error .nameError
  | some recs =>
    match collectPartners recs with
    | .error _ => .error .nameError
    | .ok ps => .ok (dictInsert v.pos ps d0)

/-- The dict `ld_d` built by `ld_prune` for one chromosome. -/
def ld_d_of (f : LDSource) (chrom : String) (tdf : List Variant) :
    Except PyErr LDDict :=
  tdf.foldlM (ld_d_step f chrom) []

/-! ### Adjacency matrix and connected components

The code builds a 0/1 dataframe `t` with rows `ld_d.keys()` and columns the
sorted union of all partner lists, sets `t.ix[k, ld_d[k]] = 1`, relabels both
axes to `chrom:pos`, keeps `set(t.index) - set(t.columns)` outright, restricts
`t` to `ind = list(set(t.columns) & set(t.index))` on both axes, and feeds the
matrix to `networkx.Graph`, whose connected components it then resolves.  The
graph on `ind` therefore has an (undirected) edge between `u` and `v` iff
`v ∈ ld_d[u]` or `u ∈ ld_d[v]`. -/

/-- Row labels of `t`: `ld_d.keys()`. -/
def indexOf (d : LDDict) : List Int := d.map (fun e => e.1)

/-- Column labels of `t`: `sorted(list(set(flattened partner lists)))`. -/
def colsOf (d : LDDict) : List Int :=
  List.insertionSort (fun a b => a ≤ b) (d.flatMap (fun e => e.2)).dedup

/-- Undirected adjacency of the `networkx` graph built from the restricted
    matrix: entry `(u,v)` or `(v,u)` is 1. -/
def edgeB (d : LDDict) (u v : Int) : Bool :=
  decide (v ∈ dictGet d u) || decide (u ∈ dictGet d v)

/-- One breadth-first expansion step: adjoin every vertex of `V` that is not
    yet in `R` but adjacent to some member of `R`. -/
def stepFrontier (V : List Int) (e : Int → Int → Bool) (R : List Int) :
    List Int :=
  R ++ V.filter (fun w => !(decide (w ∈ R)) && R.any (fun u => e u w))

/-- Iterated expansion (fuel-indexed so that it is structurally recursive). -/
def reachN (V : List Int) (e : Int → Int → Bool) : Nat → List Int → List Int
  | 0, R => R
  | n + 1, R => reachN V e n (stepFrontier V e R)

/-- The connected component of `v` in the graph on vertex list `V`:
    `V.length` expansion steps always reach the fixpoint. -/
def compOf (V : List Int) (e : Int → Int → Bool) (v : Int) : List Int :=
  reachN V e V.length [v]

/-- Decidable connectivity. -/
def connB (V : List Int) (e : Int → Int → Bool) (u v : Int) : Bool :=
  decide (v ∈ compOf V e u)

/-- First representative of each connectivity class, in list order
    (fuel-indexed structural recursion; `fuel ≥ length` suffices). -/
def classRepsFuel (conn : Int → Int → Bool) : Nat → List Int → List Int
  | 0, _ => []
  | _, [] => []
  | n + 1, v :: rest =>
    v :: classRepsFuel conn n (rest.filter (fun u => !(conn v u)))

/-- One representative per connectivity class of `V`, in `V` order. -/
def classReps (conn : Int → Int → Bool) (V : List Int) : List Int :=
  classRepsFuel conn V.length V

/-- The connected components yielded by `networkx.connected_components`, each
    as its member list (member order is an enumeration of the class; the
    result set of the pruning policy does not depend on it except through the
    tie-break on equal p-values). -/
def compsOf (V : List Int) (e : Int → Int → Bool) : List (List Int) :=
  (classReps (connB V e) V).map (fun r => V.filter (fun w => connB V e r w))

/-! ### The prune policy -/

/-- `s = tdf.ix[t.index[sg]]`: the rows of the per-chromosome table at the
    member positions of one component, in member order. -/
def sRows (tdf : List Variant) (mem : List Int) : List Variant :=
  mem.flatMap (fun p => tdf.filter (fun v => v.pos == p))

/-- `s.pvalue.min()`. -/
def listMinQ : List ℚ → Option ℚ
  | [] => none
  | x :: xs =>
    match listMinQ xs with
    | none => some x
    | some m => some (min x m)

/-- `s[s.pvalue == s.pvalue.min()].index[0]`: the index label of the first row
    of `s` attaining the minimal p-value. -/
def repKey? (tdf : List Variant) (mem : List Int) : Option VKey :=
  match listMinQ ((sRows tdf mem).map (fun v => v.pvalue)) with
  | none => none
  | some m => ((sRows tdf mem).find? (fun v => v.pvalue == m)).map keyOf

/-- An admissible model of the iteration order of
    `list(set(t.columns) & set(t.index))`: any duplicate-free enumeration of
    the intersection. -/
def validOrder (pi : List Int → List Int → List Int) : Prop :=
  ∀ idx cols, (pi idx cols).Nodup ∧
    ∀ p, p ∈ pi idx cols ↔ p ∈ idx ∧ p ∈ cols

/-- A concrete admissible order (first-occurrence order of the index). -/
def ordIdx : List Int → List Int → List Int :=
  fun idx cols => (idx.filter (fun p => decide (p ∈ cols))).dedup

/-- Another concrete admissible order (reversed), exhibiting that the chosen
    representative of a p-value tie depends on the interpreter's set order. -/
def ordRev : List Int → List Int → List Int :=
  fun idx cols => ((idx.filter (fun p => decide (p ∈ cols))).dedup).reverse

/-- `tdf = df[df['chrom'].astype(str) == chrom]`. -/
def tdfOf (chrom : String) (df : List Variant) : List Variant :=
  df.filter (fun v => v.chrom == chrom)

/-- The labels kept outright: `set(t.index) - set(t.columns)`
    ("SNPs not in LD with any others"). -/
def isoKeys (chrom : String) (d : LDDict) : List VKey :=
  ((indexOf d).filter (fun p => !(decide (p ∈ colsOf d)))).map
    (fun p => (chrom, p))

/-- `ind = list(set(t.columns) & set(t.index))`, in the interpreter-supplied
    order `pi`. -/
def indOf (pi : List Int → List Int → List Int) (d : LDDict) : List Int :=
  pi (indexOf d) (colsOf d)

/-- One most-significant label per connected component of the graph on
    `ind`. -/
def repsOf (pi : List Int → List Int → List Int) (tdf : List Variant)
    (d : LDDict) : List VKey :=
  (compsOf (indOf pi d) (edgeB d)).filterMap (fun mem => repKey? tdf mem)

/-- The keys contributed to `keep` by one iteration of
    `for chrom in ld_beds.keys():` of `ld_prune`: the isolated labels
    plus one most-significant label per connected component. -/
def keepChrom (pi : List Int → List Int → List Int) (chrom : String)
    (f : LDSource) (df : List Variant) : Except PyErr (List VKey) :=
  match ld_d_of f chrom (tdfOf chrom df) with
  | .error e => .error e
  | .ok d => .ok (isoKeys chrom d ++ repsOf pi (tdfOf chrom df) d)

/-- `ld_prune(df, ld_beds)`.  The dict `ld_beds` is modelled as its entry
    list; the accumulated set `keep` as the concatenation of the
    per-chromosome contributions; and the final `df.ix[keep]` as the selection,
    in table order, of the rows whose index label lies in `keep`. -/
def ld_prune (pi : List Int → List Int → List Int)
    (ld_beds : List (String × LDSource)) (df : List Variant) :
    Except PyErr (List Variant) :=
  match ld_beds.foldlM
      (fun keep cf =>
        match keepChrom pi cf.1 cf.2 df with
        | .error e => Except.error e
        | .ok ks => Except.ok (keep ++ ks))
      ([] : List VKey) with
  | .error e => .error e
  | .ok keep => .ok (df.filter (fun v => decide (keyOf v ∈ keep)))

/-! ### The expand policy -/

/-- A line of the BedTool built by `ld_expand`: zero-based half-open interval
    plus the name field `chrom:pos` (modelled, like index labels, as a pair). -/
structure Interval where
  chrom : String
  start : Int
  stop : Int
  name : String × Int
  deriving DecidableEq, Repr

/-- Intervals contributed by one record of a query result:
    `'{0}\t{1}\t{2}\t{0}:{2}'.format(n[0], int(p2) - 1, int(p2))`. -/
def expandRecord (n : LDRecord) : Except PyErr (List Interval) :=
  match parseLast n.flast with
  | .error e => .error e
  | .ok none => .ok []
  | .ok (some p2) => .ok [⟨n.f0, p2 - 1, p2, (n.f0, p2)⟩]

/-- Intervals contributed by one input variant: its own interval
    `'{}\t{}\t{}\t{}'.format(chrom, p - 1, p, ind)` (emitted before the query,
    hence also when the query raises), plus one interval per qualifying
    partner.  Here `except tabix.TabixError: continue` is well formed and
    really does skip the query. -/
def expandVariant (f : LDSource) (chrom : String) (v : Variant) :
    Except PyErr (List Interval) :=
  let self : List Interval := [⟨chrom, v.pos - 1, v.pos, keyOf v⟩]
  match f chrom (v.pos - 1) v.pos with
  | none => .ok self
  | some recs =>
    recs.foldlM
      (fun acc n =>
        match expandRecord n with
        | .error e => .error e
        | .ok ivs => .ok (acc ++ ivs))
      self

/-- Strict lexicographic order on character lists (the byte-wise comparison
    `sortBed` applies to chromosome names). -/
def strLtb : List Char → List Char → Bool
  | [], [] => false
  | [], _ :: _ => true
  | _ :: _, [] => false
  | a :: as, b :: bs =>
    if a < b then true
    else if a = b then strLtb as bs
    else false

/-- Sort order of `BedTool.sort()`: chromosome lexicographically, then start,
    then stop. -/
def ivLEb (a b : Interval) : Bool :=
  strLtb a.chrom.toList b.chrom.toList ||
    (a.chrom == b.chrom &&
      (decide (a.start < b.start) ||
        (a.start == b.start && decide (a.stop ≤ b.stop))))

/-- The sort relation, as a proposition. -/
def ivLE (a b : Interval) : Prop := ivLEb a b = true

instance : DecidableRel ivLE := fun a b => by unfold ivLE; infer_instance

/-- `ld_expand(df, ld_beds)`: emit intervals chromosome by chromosome, then
    return the sorted collection. -/
def ld_expand (ld_beds : List (String × LDSource)) (df : List Variant) :
    Except PyErr (List Interval) :=
  match ld_beds.foldlM
      (fun acc cf =>
        (df.filter (fun v => v.chrom == cf.1)).foldlM
          (fun acc2 v =>
            match expandVariant cf.2 cf.1 v with
            | .error e => Except.error e
            | .ok ivs => Except.ok (acc2 ++ ivs))
          acc)
      ([] : List Interval) with
  | .error e => .error e
  | .ok ivs => .ok (List.insertionSort ivLE ivs)

/-! ### Derived notions used to state the properties -/

/-- The per-position work of the graph builder in `ld_prune`: query one
    position and collect its qualifying partners (the body of `ld_d_step`
    after the `ld_d[p] = []` initialisation).  As in `ld_d_step`, any
    exception of the `try` body — the query's `TabixError` or a record's
    parse `ValueError` — reaches the `except TabixError:` clause, whose
    evaluation of the unbound name raises `NameError`. -/
def partners? (f : LDSource) (chrom : String) (p : Int) :
    Except PyErr (List Int) :=
  match f chrom (p - 1) p with
  | none => .error .nameError
  | some recs =>
    match collectPartners recs with
    | .error _ => .error .nameError
    | .ok ps => .ok ps

/-- The edge relation of the graph on vertex list `V`, as a proposition. -/
def eRel (V : List Int) (e : Int → Int → Bool) (a b : Int) : Prop :=
  a ∈ V ∧ b ∈ V ∧ e a b = true

/-- `R` is closed under edges into `V`. -/
def ClosedL (V : List Int) (e : Int → Int → Bool) (R : List Int) : Prop :=
  ∀ u ∈ R, ∀ w ∈ V, e u w = true → w ∈ R

/-- The ordering "by (chromosome, start)" that the specification asserts of
    `ld_expand`'s result. -/
def byChromStart (a b : Interval) : Prop :=
  strLtb a.chrom.toList b.chrom.toList = true ∨
    (a.chrom = b.chrom ∧ a.start ≤ b.start)

/-! ### Concrete fixtures used by witnesses and counterexamples -/

/-- An LD bed record whose first field is `chrom` and whose trailing field is
    `s` (the middle fields are never read). -/
def mkRec (chrom s : String) : LDRecord := ⟨[chrom, "x", "y", s]⟩

/-- A source on which every query succeeds with no records. -/
def srcEmpty : LDSource := fun _ _ _ => some []

/-- A source on which every query raises `TabixError`. -/
def srcNone : LDSource := fun _ _ _ => none

/-- A source on which every query returns one record whose trailing field does
    not parse as `pos:pos:float`. -/
def srcBad : LDSource := fun _ _ _ => some [mkRec "chr1" "garbage"]

/-- Source for the specified tie-break scenario: positions 100, 105 and 110 of
    chr1 pairwise linked at r-squared 0.9. -/
def srcTriple : LDSource := fun c s e =>
  if c = "chr1" ∧ s = 99 ∧ e = 100 then
    some [mkRec "chr1" "100:105:0.9", mkRec "chr1" "100:110:0.9"]
  else if c = "chr1" ∧ s = 104 ∧ e = 105 then
    some [mkRec "chr1" "105:100:0.9", mkRec "chr1" "105:110:0.9"]
  else if c = "chr1" ∧ s = 109 ∧ e = 110 then
    some [mkRec "chr1" "110:100:0.9", mkRec "chr1" "110:105:0.9"]
  else some []

/-- The specified tie-break scenario's table: p-values 0.01, 0.001, 0.01. -/
def tblTriple : List Variant :=
  [⟨"chr1", 100, mkRat 1 100⟩, ⟨"chr1", 105, mkRat 1 1000⟩,
    ⟨"chr1", 110, mkRat 1 100⟩]

/-- The dict `ld_d` that `ld_prune` builds for the tie-break scenario. -/
def dTriple : LDDict :=
  [(100, [105, 110]), (105, [100, 110]), (110, [100, 105])]

/-- Source linking 100 and 105 of chr1 to each other at r-squared 0.9. -/
def srcPair : LDSource := fun c s e =>
  if c = "chr1" ∧ s = 99 ∧ e = 100 then some [mkRec "chr1" "100:105:0.9"]
  else if c = "chr1" ∧ s = 104 ∧ e = 105 then some [mkRec "chr1" "105:100:0.9"]
  else some []

/-- Table with a p-value tie between the two linked variants. -/
def tblPair : List Variant :=
  [⟨"chr1", 100, mkRat 1 100⟩, ⟨"chr1", 105, mkRat 1 100⟩]

/-- Source linking each of the input positions 100 and 200 of chr1 to the
    non-input position 150 (and to nothing else). -/
def srcVia : LDSource := fun c s e =>
  if c = "chr1" ∧ s = 99 ∧ e = 100 then some [mkRec "chr1" "100:150:0.9"]
  else if c = "chr1" ∧ s = 199 ∧ e = 200 then some [mkRec "chr1" "200:150:0.9"]
  else some []

/-- Table for the partner-only-linkage scenario. -/
def tblVia : List Variant :=
  [⟨"chr1", 100, mkRat 1 100⟩, ⟨"chr1", 200, mkRat 1 50⟩]

/-- Source answering the query at chr1 position 100 with a self-record at
    r-squared 0.9. -/
def srcSelf : LDSource := fun c s e =>
  if c = "chr1" ∧ s = 99 ∧ e = 100 then some [mkRec "chr1" "100:100:0.9"]
  else some []

/-- Source for chr2 linking position 5 to positions 3 (r-squared 0.95,
    qualifying) and 9 (r-squared 0.5, not qualifying). -/
def srcChr2 : LDSource := fun c s e =>
  if c = "chr2" ∧ s = 4 ∧ e = 5 then
    some [mkRec "chr2" "5:3:0.95", mkRec "chr2" "5:9:0.5"]
  else some []

/-- Source for chr1 linking position 100 to the non-input position 500 only
    (and nobody to 100). -/
def srcOut : LDSource := fun c s e =>
  if c = "chr1" ∧ s = 99 ∧ e = 100 then some [mkRec "chr1" "100:500:0.9"]
  else some []

/-! ## Basic lemmas -/

@[simp] theorem except_error_bind {ε α β : Type} (e : ε)
    (g : α → Except ε β) : (Except.error e >>= g) = Except.error e := rfl

@[simp] theorem except_ok_bind {ε α β : Type} (a : α)
    (g : α → Except ε β) : (Except.ok a >>= g) = g a := rfl

@[simp] theorem except_pure_eq {ε α : Type} (a : α) :
    (pure a : Except ε α) = Except.ok a := rfl

theorem dictInsert_dictInsert (k : Int) (v1 v2 : List Int) (d : LDDict) :
    dictInsert k v2 (dictInsert k v1 d) = dictInsert k v2 d := by
  induction d with
  | nil => simp [dictInsert]
  | cons e rest ih =>
    by_cases h : k = e.1 <;> simp [dictInsert, h, ih]

theorem dictInsert_fresh (k : Int) (v : List Int) (d : LDDict)
    (h : k ∉ d.map (fun e => e.1)) : dictInsert k v d = d ++ [(k, v)] := by
  induction d with
  | nil => simp [dictInsert]
  | cons e rest ih =>
    simp only [List.map_cons, List.mem_cons] at h
    push_neg at h
    simp [dictInsert, h.1, ih h.2]

theorem ld_d_step_eq (f : LDSource) (chrom : String) (d : LDDict)
    (v : Variant) :
    ld_d_step f chrom d v =
      match partners? f chrom v.pos with
      | .error e => .error e
      | .ok ps => .ok (dictInsert v.pos ps d) := by
  unfold ld_d_step partners?
  cases f chrom (v.pos - 1) v.pos with
  | none => rfl
  | some recs =>
    cases h : collectPartners recs with
    | error e => simp [h]
    | ok ps => simp [h, dictInsert_dictInsert]

/-- Characterisation of a successful `ld_d` construction over rows with
    pairwise distinct positions: the dict holds, row by row, each position with
    its qualifying partners. -/
theorem ld_d_of_char (f : LDSource) (chrom : String) :
    ∀ (tdf : List Variant) (d0 d : LDDict),
      (tdf.map (fun v => v.pos)).Nodup →
      (∀ v ∈ tdf, v.pos ∉ d0.map (fun e => e.1)) →
      tdf.foldlM (ld_d_step f chrom) d0 = .ok d →
      ∃ tl, d = d0 ++ tl ∧
        List.Forall₂
          (fun v ent => ent.1 = v.pos ∧ partners? f chrom v.pos = .ok ent.2)
          tdf tl := by
  intro tdf
  induction tdf with
  | nil =>
    intro d0 d _ _ h
    simp only [List.foldlM_nil, except_pure_eq, Except.ok.injEq] at h
    exact ⟨[], by simpa using h.symm, List.Forall₂.nil⟩
  | cons v rest ih =>
    intro d0 d hn hd0 h
    simp only [List.foldlM_cons] at h
    rw [ld_d_step_eq] at h
    cases hp : partners? f chrom v.pos with
    | error e => rw [hp] at h; exact absurd h (by simp)
    | ok ps =>
      rw [hp] at h
      simp only [except_ok_bind] at h
      have hfresh : v.pos ∉ d0.map (fun e => e.1) :=
        hd0 v (List.mem_cons_self v rest)
      rw [dictInsert_fresh v.pos ps d0 hfresh] at h
      simp only [List.map_cons, List.nodup_cons] at hn
      have hd0' : ∀ w ∈ rest, w.pos ∉ (d0 ++ [(v.pos, ps)]).map
          (fun e => e.1) := by
        intro w hw
        simp only [List.map_append, List.mem_append, List.map_cons,
          List.map_nil, List.mem_singleton]
        push_neg
        refine ⟨hd0 w (List.mem_cons_of_mem _ hw), ?_⟩
        intro hc
        exact hn.1 (hc ▸ List.mem_map_of_mem (fun x => x.pos) hw)
      obtain ⟨tl, htl, hall⟩ := ih (d0 ++ [(v.pos, ps)]) d hn.2 hd0' h
      exact ⟨(v.pos, ps) :: tl, by simpa using htl,
        List.Forall₂.cons ⟨rfl, hp⟩ hall⟩

/-- Packaged form for the dict actually built by `ld_prune`. -/
theorem ld_d_of_ok (f : LDSource) (chrom : String) (tdf : List Variant)
    (d : LDDict) (hn : (tdf.map (fun v => v.pos)).Nodup)
    (h : ld_d_of f chrom tdf = .ok d) :
    List.Forall₂
      (fun v ent => ent.1 = v.pos ∧ partners? f chrom v.pos = .ok ent.2)
      tdf d := by
  obtain ⟨tl, htl, hall⟩ := ld_d_of_char f chrom tdf [] d hn (by simp) h
  simpa [htl] using hall

/-- If every row's query-and-parse succeeds then the dict construction
    succeeds. -/
theorem ld_d_of_ok_of_forall (f : LDSource) (chrom : String) :
    ∀ (tdf : List Variant) (d0 : LDDict),
      (∀ v ∈ tdf, ∃ ps, partners? f chrom v.pos = .ok ps) →
      ∃ d, tdf.foldlM (ld_d_step f chrom) d0 = .ok d := by
  intro tdf
  induction tdf with
  | nil => intro d0 _; exact ⟨d0, rfl⟩
  | cons v rest ih =>
    intro d0 hall
    obtain ⟨ps, hps⟩ := hall v (List.mem_cons_self v rest)
    obtain ⟨d, hd⟩ := ih (dictInsert v.pos ps d0)
      (fun w hw => hall w (List.mem_cons_of_mem _ hw))
    refine ⟨d, ?_⟩
    simp only [List.foldlM_cons, ld_d_step_eq, hps]
    simpa using hd

/-- Conversely, a successful dict construction means every row's
    query-and-parse succeeded. -/
theorem ld_d_of_forall_ok (f : LDSource) (chrom : String) :
    ∀ (tdf : List Variant) (d0 d : LDDict),
      tdf.foldlM (ld_d_step f chrom) d0 = .ok d →
      ∀ v ∈ tdf, ∃ ps, partners? f chrom v.pos = .ok ps := by
  intro tdf
  induction tdf with
  | nil => intro d0 d _ v hv; exact absurd hv (List.not_mem_nil v)
  | cons w rest ih =>
    intro d0 d h v hv
    simp only [List.foldlM_cons, ld_d_step_eq] at h
    cases hp : partners? f chrom w.pos with
    | error e => rw [hp] at h; exact absurd h (by simp)
    | ok ps =>
      rw [hp] at h
      simp only [except_ok_bind] at h
      rcases List.mem_cons.mp hv with rfl | hv'
      · exact ⟨ps, hp⟩
      · exact ih _ d h v hv'

/-! ### Characterisation of the outer fold of `ld_prune` -/

theorem forall2_right_unique {α β : Type} {r : α → β → Prop}
    (huniq : ∀ a b b', r a b → r a b' → b = b') :
    ∀ (l : List α) (l₁ l₂ : List β),
      List.Forall₂ r l l₁ → List.Forall₂ r l l₂ → l₁ = l₂ := by
  intro l
  induction l with
  | nil =>
    intro l₁ l₂ h₁ h₂
    cases h₁; cases h₂; rfl
  | cons a rest ih =>
    intro l₁ l₂ h₁ h₂
    rcases List.forall₂_cons_left_iff.mp h₁ with ⟨b₁, t₁, hb₁, ht₁, rfl⟩
    rcases List.forall₂_cons_left_iff.mp h₂ with ⟨b₂, t₂, hb₂, ht₂, rfl⟩
    rw [huniq a b₁ b₂ hb₁ hb₂, ih t₁ t₂ ht₁ ht₂]

theorem prune_fold_char (pi : List Int → List Int → List Int)
    (df : List Variant) :
    ∀ (L : List (String × LDSource)) (acc res : List VKey),
      (L.foldlM
        (fun keep cf =>
          match keepChrom pi cf.1 cf.2 df with
          | .error e => Except.error e
          | .ok ks => Except.ok (keep ++ ks)) acc = .ok res) ↔
      ∃ kss, List.Forall₂
          (fun cf ks => keepChrom pi cf.1 cf.2 df = .ok ks) L kss ∧
        res = acc ++ kss.flatten := by
  intro L
  induction L with
  | nil =>
    intro acc res
    constructor
    · intro h
      simp only [List.foldlM_nil, except_pure_eq, Except.ok.injEq] at h
      exact ⟨[], List.Forall₂.nil, by simp [h.symm]⟩
    · rintro ⟨kss, hall, rfl⟩
      cases hall
      simp [List.foldlM_nil]
  | cons cf rest ih =>
    intro acc res
    simp only [List.foldlM_cons]
    cases h : keepChrom pi cf.1 cf.2 df with
    | error e =>
      simp only [except_error_bind]
      constructor
      · intro hc; exact absurd hc (by simp)
      · rintro ⟨kss, hall, rfl⟩
        rcases List.forall₂_cons_left_iff.mp hall with ⟨ks, kss', hks, _, rfl⟩
        rw [h] at hks
        exact absurd hks (by simp)
    | ok ks =>
      simp only [except_ok_bind]
      rw [ih (acc ++ ks) res]
      constructor
      · rintro ⟨kss', hall, rfl⟩
        exact ⟨ks :: kss', List.Forall₂.cons h hall, by simp⟩
      · rintro ⟨kss, hall, rfl⟩
        rcases List.forall₂_cons_left_iff.mp hall with ⟨ks0, kss', hks, hall', rfl⟩
        rw [h] at hks
        cases hks
        exact ⟨kss', hall', by simp⟩

/-- A successful run of `ld_prune` is exactly: every chromosome's contribution
    succeeded, and the output is the rows of `df` whose label lies in the
    concatenation of the contributions. -/
theorem ld_prune_ok_iff (pi : List Int → List Int → List Int)
    (L : List (String × LDSource)) (df : List Variant)
    (out : List Variant) :
    ld_prune pi L df = .ok out ↔
      ∃ kss, List.Forall₂
          (fun cf ks => keepChrom pi cf.1 cf.2 df = .ok ks) L kss ∧
        out = df.filter (fun v => decide (keyOf v ∈ kss.flatten)) := by
  unfold ld_prune
  cases h : L.foldlM
      (fun keep cf =>
        match keepChrom pi cf.1 cf.2 df with
        | .error e => Except.error e
        | .ok ks => Except.ok (keep ++ ks)) ([] : List VKey) with
  | error e =>
    constructor
    · intro hc; exact absurd hc (by simp)
    · rintro ⟨kss, hall, rfl⟩
      rcases (prune_fold_char pi df L [] kss.flatten).mpr
        ⟨kss, hall, by simp⟩ with h'
      rw [h] at h'
      exact absurd h' (by simp)
  | ok keep =>
    rcases (prune_fold_char pi df L [] keep).mp h with ⟨kss, hall, hkeep⟩
    simp only [List.nil_append] at hkeep
    subst hkeep
    constructor
    · intro hc
      simp only [Except.ok.injEq] at hc
      exact ⟨kss, hall, hc.symm⟩
    · rintro ⟨kss', hall', rfl⟩
      have : kss' = kss := by
        refine forall2_right_unique ?_ L kss' kss hall' hall
        intro a b b' hb hb'
        rw [hb] at hb'
        exact (Except.ok.inj hb')
      rw [this]

/-! ### Rows, minima and representatives -/

theorem mem_tdfOf {chrom : String} {df : List Variant} {v : Variant} :
    v ∈ tdfOf chrom df ↔ v ∈ df ∧ v.chrom = chrom := by
  unfold tdfOf
  simp [List.mem_filter]

theorem mem_sRows {tdf : List Variant} {mem : List Int} {r : Variant} :
    r ∈ sRows tdf mem ↔ r ∈ tdf ∧ r.pos ∈ mem := by
  unfold sRows
  simp only [List.mem_flatMap, List.mem_filter, beq_iff_eq]
  constructor
  · rintro ⟨p, hp, hr, rfl⟩
    exact ⟨hr, hp⟩
  · rintro ⟨hr, hp⟩
    exact ⟨r.pos, hp, hr, rfl⟩

theorem listMinQ_mem : ∀ (l : List ℚ) (m : ℚ), listMinQ l = some m → m ∈ l := by
  intro l
  induction l with
  | nil => intro m h; simp [listMinQ] at h
  | cons x xs ih =>
    intro m h
    unfold listMinQ at h
    cases hx : listMinQ xs with
    | none =>
      rw [hx] at h
      cases h
      exact List.mem_cons_self x xs
    | some m' =>
      rw [hx] at h
      cases h
      rcases le_total x m' with hle | hle
      · simp [min_eq_left hle]
      · right
        rw [min_eq_right hle]
        exact ih m' hx

theorem listMinQ_le : ∀ (l : List ℚ) (m : ℚ), listMinQ l = some m →
    ∀ x ∈ l, m ≤ x := by
  intro l
  induction l with
  | nil => intro m h; simp [listMinQ] at h
  | cons y ys ih =>
    intro m h x hx
    unfold listMinQ at h
    cases hy : listMinQ ys with
    | none =>
      rw [hy] at h
      cases h
      cases ys with
      | nil => simp at hx; simp [hx]
      | cons z zs => simp [listMinQ] at hy; cases hy' : listMinQ zs <;>
          simp [hy'] at hy
    | some m' =>
      rw [hy] at h
      cases h
      rcases List.mem_cons.mp hx with rfl | hx'
      · exact min_le_left _ _
      · exact le_trans (min_le_right _ _) (ih m' hy x hx')

theorem listMinQ_of_ne_nil : ∀ (l : List ℚ), l ≠ [] →
    ∃ m, listMinQ l = some m := by
  intro l
  cases l with
  | nil => intro h; exact absurd rfl h
  | cons x xs =>
    intro _
    unfold listMinQ
    cases listMinQ xs with
    | none => exact ⟨x, rfl⟩
    | some m => exact ⟨min x m, rfl⟩

/-- What a computed representative is: the key of a row of `s` whose p-value
    is minimal over `s`, and the first such row in `s` order. -/
theorem repKey?_some {tdf : List Variant} {mem : List Int} {k : VKey}
    (h : repKey? tdf mem = some k) :
    ∃ r, r ∈ sRows tdf mem ∧ k = keyOf r ∧
      ∀ x ∈ sRows tdf mem, r.pvalue ≤ x.pvalue := by
  unfold repKey? at h
  cases hm : listMinQ ((sRows tdf mem).map (fun v => v.pvalue)) with
  | none => rw [hm] at h; exact absurd h (by simp)
  | some m =>
    rw [hm] at h
    simp only [Option.map_eq_some'] at h
    rcases h with ⟨r, hr, rfl⟩
    have hrmem := List.mem_of_find?_eq_some hr
    have hrp : r.pvalue = m := by
      have := List.find?_some hr
      simpa using this
    refine ⟨r, hrmem, rfl, ?_⟩
    intro x hx
    rw [hrp]
    exact listMinQ_le _ m hm x.pvalue (List.mem_map_of_mem _ hx)

/-- A nonempty row list always yields a representative. -/
theorem repKey?_isSome {tdf : List Variant} {mem : List Int}
    (h : sRows tdf mem ≠ []) : ∃ k, repKey? tdf mem = some k := by
  unfold repKey?
  have hmap : (sRows tdf mem).map (fun v => v.pvalue) ≠ [] := by
    simpa using h
  rcases listMinQ_of_ne_nil _ hmap with ⟨m, hm⟩
  rw [hm]
  have : ∃ r ∈ sRows tdf mem, (fun v => v.pvalue == m) r = true := by
    rcases List.mem_map.mp (listMinQ_mem _ m hm) with ⟨r, hr, hrp⟩
    exact ⟨r, hr, by simpa using hrp⟩
  rcases List.find?_isSome.mpr this with hsome
  rcases Option.isSome_iff_exists.mp hsome with ⟨r, hr⟩
  exact ⟨keyOf r, by simp [hr]⟩

theorem keepChrom_ok_iff {pi : List Int → List Int → List Int}
    {chrom : String} {f : LDSource} {df : List Variant} {ks : List VKey} :
    keepChrom pi chrom f df = .ok ks ↔
      ∃ d, ld_d_of f chrom (tdfOf chrom df) = .ok d ∧
        ks = isoKeys chrom d ++ repsOf pi (tdfOf chrom df) d := by
  unfold keepChrom
  cases h : ld_d_of f chrom (tdfOf chrom df) with
  | error e =>
    constructor
    · intro hc; exact absurd hc (by simp)
    · rintro ⟨d, hd, rfl⟩; exact absurd hd (by simp)
  | ok d =>
    constructor
    · intro hc
      exact ⟨d, rfl, (Except.ok.inj hc).symm⟩
    · rintro ⟨d', hd', rfl⟩
      cases Except.ok.inj hd'
      rfl

/-- Every key contributed by the processing of chromosome `chrom` carries
    `chrom` as its chromosome component. -/
theorem mem_keepChrom_fst {pi : List Int → List Int → List Int}
    {chrom : String} {f : LDSource} {df : List Variant} {ks : List VKey}
    (h : keepChrom pi chrom f df = .ok ks) :
    ∀ k ∈ ks, k.1 = chrom := by
  rcases keepChrom_ok_iff.mp h with ⟨d, _, rfl⟩
  intro k hk
  rcases List.mem_append.mp hk with hiso | hrep
  · unfold isoKeys at hiso
    rcases List.mem_map.mp hiso with ⟨p, _, rfl⟩
    rfl
  · unfold repsOf at hrep
    rcases List.mem_filterMap.mp hrep with ⟨mem, _, hmem⟩
    rcases repKey?_some hmem with ⟨r, hr, rfl, _⟩
    exact (mem_tdfOf.mp (mem_sRows.mp hr).1).2

/-- Representatives are labels of rows of the chromosome's own sub-table: a
    partner-only position (not an input variant) is never chosen. -/
theorem mem_repsOf_row {pi : List Int → List Int → List Int}
    {tdf : List Variant} {d : LDDict} {k : VKey}
    (h : k ∈ repsOf pi tdf d) :
    ∃ r ∈ tdf, k = keyOf r := by
  unfold repsOf at h
  rcases List.mem_filterMap.mp h with ⟨mem, _, hmem⟩
  rcases repKey?_some hmem with ⟨r, hr, rfl, _⟩
  exact ⟨r, (mem_sRows.mp hr).1, rfl⟩

theorem forall2_mem_right {α β : Type} {r : α → β → Prop} :
    ∀ {l₁ : List α} {l₂ : List β}, List.Forall₂ r l₁ l₂ → ∀ b ∈ l₂,
      ∃ a ∈ l₁, r a b := by
  intro l₁ l₂ h
  induction h with
  | nil => intro b hb; exact absurd hb (List.not_mem_nil b)
  | cons hr _ ih =>
    intro b hb
    rcases List.mem_cons.mp hb with rfl | hb'
    · exact ⟨_, List.mem_cons_self _ _, hr⟩
    · rcases ih b hb' with ⟨a, ha, har⟩
      exact ⟨a, List.mem_cons_of_mem _ ha, har⟩

/-- Every key of the accumulated `keep` set carries the chromosome of the
    `ld_beds` entry that produced it. -/
theorem mem_keep_chrom {pi : List Int → List Int → List Int}
    {L : List (String × LDSource)} {df : List Variant}
    {kss : List (List VKey)}
    (hall : List.Forall₂
      (fun cf ks => keepChrom pi cf.1 cf.2 df = .ok ks) L kss) :
    ∀ k ∈ kss.flatten, k.1 ∈ L.map Prod.fst := by
  intro k hk
  rcases List.mem_flatten.mp hk with ⟨ks, hks, hkks⟩
  rcases forall2_mem_right hall ks hks with ⟨cf, hcf, hok⟩
  rw [mem_keepChrom_fst hok k hkks]
  exact List.mem_map_of_mem Prod.fst hcf

/-! ## Fold growth lemmas (generic, for `ld_expand`) -/

theorem foldlM_append_char {α β : Type}
    (s : List β → α → Except PyErr (List β))
    (hs : ∀ acc x r, s acc x = .ok r → ∃ ext, r = acc ++ ext) :
    ∀ (l : List α) (acc res : List β),
      l.foldlM s acc = .ok res → ∃ ext, res = acc ++ ext := by
  intro l
  induction l with
  | nil =>
    intro acc res h
    simp only [List.foldlM_nil, except_pure_eq, Except.ok.injEq] at h
    exact ⟨[], by simp [h.symm]⟩
  | cons x rest ih =>
    intro acc res h
    simp only [List.foldlM_cons] at h
    cases hx : s acc x with
    | error e => rw [hx] at h; exact absurd h (by simp)
    | ok r =>
      rw [hx] at h
      simp only [except_ok_bind] at h
      rcases hs acc x r hx with ⟨ext1, rfl⟩
      rcases ih (acc ++ ext1) res h with ⟨ext2, rfl⟩
      exact ⟨ext1 ++ ext2, by simp⟩

theorem foldlM_length_ge {α β : Type}
    (s : List β → α → Except PyErr (List β)) (g : α → Nat)
    (hs : ∀ acc x r, s acc x = .ok r → acc.length + g x ≤ r.length) :
    ∀ (l : List α) (acc res : List β),
      l.foldlM s acc = .ok res →
        acc.length + (l.map g).sum ≤ res.length := by
  intro l
  induction l with
  | nil =>
    intro acc res h
    simp only [List.foldlM_nil, except_pure_eq, Except.ok.injEq] at h
    simp [h]
  | cons x rest ih =>
    intro acc res h
    simp only [List.foldlM_cons] at h
    cases hx : s acc x with
    | error e => rw [hx] at h; exact absurd h (by simp)
    | ok r =>
      rw [hx] at h
      simp only [except_ok_bind] at h
      have h1 := hs acc x r hx
      have h2 := ih r res h
      simp only [List.map_cons, List.sum_cons]
      omega

/-! ## Connected-component machinery -/

theorem subset_stepFrontier (V : List Int) (e : Int → Int → Bool)
    (R : List Int) : R ⊆ stepFrontier V e R := by
  intro x hx
  exact List.mem_append_left _ hx

theorem stepFrontier_subset (V : List Int) (e : Int → Int → Bool)
    (R : List Int) (hR : R ⊆ V) : stepFrontier V e R ⊆ V := by
  intro x hx
  rcases List.mem_append.mp hx with hx | hx
  · exact hR hx
  · exact List.mem_of_mem_filter hx

theorem subset_reachN (V : List Int) (e : Int → Int → Bool) :
    ∀ (n : Nat) (R : List Int), R ⊆ reachN V e n R := by
  intro n
  induction n with
  | zero => intro R x hx; exact hx
  | succ n ih =>
    intro R x hx
    exact ih (stepFrontier V e R) (subset_stepFrontier V e R hx)

theorem reachN_subset (V : List Int) (e : Int → Int → Bool) :
    ∀ (n : Nat) (R : List Int), R ⊆ V → reachN V e n R ⊆ V := by
  intro n
  induction n with
  | zero => intro R hR; exact hR
  | succ n ih => intro R hR; exact ih _ (stepFrontier_subset V e R hR)

theorem nodup_stepFrontier (V : List Int) (e : Int → Int → Bool)
    (R : List Int) (hV : V.Nodup) (hR : R.Nodup) :
    (stepFrontier V e R).Nodup := by
  refine List.Nodup.append hR (hV.filter _) ?_
  intro x hx1 hx2
  have := (List.mem_filter.mp hx2).2
  simp only [Bool.and_eq_true, Bool.not_eq_true'] at this
  rcases this with ⟨hnot, _⟩
  simp only [decide_eq_false_iff_not] at hnot
  exact hnot hx1

theorem nodup_reachN (V : List Int) (e : Int → Int → Bool) (hV : V.Nodup) :
    ∀ (n : Nat) (R : List Int), R.Nodup → (reachN V e n R).Nodup := by
  intro n
  induction n with
  | zero => intro R hR; exact hR
  | succ n ih => intro R hR; exact ih _ (nodup_stepFrontier V e R hV hR)

theorem stepFrontier_eq_of_closed (V : List Int) (e : Int → Int → Bool)
    (R : List Int) (h : ClosedL V e R) : stepFrontier V e R = R := by
  unfold stepFrontier
  have : V.filter
      (fun w => !(decide (w ∈ R)) && R.any (fun u => e u w)) = [] := by
    rw [List.filter_eq_nil_iff]
    intro w hw
    simp only [Bool.and_eq_true, Bool.not_eq_true', decide_eq_false_iff_not,
      List.any_eq_true, not_and]
    intro hnot
    rintro ⟨u, hu, he⟩
    exact hnot (h u hu w hw he)
  rw [this, List.append_nil]

theorem closed_of_stepFrontier_eq (V : List Int) (e : Int → Int → Bool)
    (R : List Int) (h : stepFrontier V e R = R) : ClosedL V e R := by
  intro u hu w hw he
  by_cases hwR : w ∈ R
  · exact hwR
  · exfalso
    have hbatch : V.filter
        (fun w => !(decide (w ∈ R)) && R.any (fun u => e u w)) = [] := by
      have := h
      unfold stepFrontier at this
      have h2 : R ++ V.filter
          (fun w => !(decide (w ∈ R)) && R.any (fun u => e u w)) =
            R ++ [] := by
        simpa using this
      exact List.append_cancel_left h2
    have hwmem : w ∈ V.filter
        (fun w => !(decide (w ∈ R)) && R.any (fun u => e u w)) := by
      rw [List.mem_filter]
      refine ⟨hw, ?_⟩
      simp only [Bool.and_eq_true, Bool.not_eq_true', decide_eq_false_iff_not,
        List.any_eq_true]
      exact ⟨hwR, u, hu, he⟩
    rw [hbatch] at hwmem
    exact List.not_mem_nil w hwmem

theorem reachN_eq_of_closed (V : List Int) (e : Int → Int → Bool) :
    ∀ (n : Nat) (R : List Int), ClosedL V e R → reachN V e n R = R := by
  intro n
  induction n with
  | zero => intro R _; rfl
  | succ n ih =>
    intro R hR
    show reachN V e n (stepFrontier V e R) = R
    rw [stepFrontier_eq_of_closed V e R hR]
    exact ih R hR

theorem reachN_closed (V : List Int) (e : Int → Int → Bool) (hV : V.Nodup) :
    ∀ (n : Nat) (R : List Int), R.Nodup → R ⊆ V → R ≠ [] →
      V.length + 1 ≤ n + R.length → ClosedL V e (reachN V e n R) := by
  intro n
  induction n with
  | zero =>
    intro R hR hRV hne hlen
    exfalso
    have : R.length ≤ V.length :=
      (List.Nodup.subperm hR hRV).length_le
    omega
  | succ n ih =>
    intro R hR hRV hne hlen
    by_cases hstep : stepFrontier V e R = R
    · have hclosed := closed_of_stepFrontier_eq V e R hstep
      show ClosedL V e (reachN V e n (stepFrontier V e R))
      rw [hstep, reachN_eq_of_closed V e n R hclosed]
      exact hclosed
    · have hgrow : R.length < (stepFrontier V e R).length := by
        unfold stepFrontier at hstep ⊢
        cases hbatch : V.filter
            (fun w => !(decide (w ∈ R)) && R.any (fun u => e u w)) with
        | nil => rw [hbatch] at hstep; simp at hstep
        | cons b bs =>
          simp only [List.length_append, List.length_cons]
          omega
      refine ih (stepFrontier V e R) (nodup_stepFrontier V e R hV hR)
        (stepFrontier_subset V e R hRV) ?_ ?_
      · intro hc
        rw [hc] at hgrow
        simp at hgrow
      · omega

theorem compOf_closed (V : List Int) (e : Int → Int → Bool) (hV : V.Nodup)
    (v : Int) (hv : v ∈ V) : ClosedL V e (compOf V e v) := by
  refine reachN_closed V e hV V.length [v] (by simp) ?_ (by simp) (by simp)
  intro x hx
  rw [List.mem_singleton.mp hx]
  exact hv

theorem mem_compOf_self (V : List Int) (e : Int → Int → Bool) (v : Int) :
    v ∈ compOf V e v :=
  subset_reachN V e V.length [v] (List.mem_singleton_self v)

theorem reachN_sound (V : List Int) (e : Int → Int → Bool) (v : Int) :
    ∀ (n : Nat) (R : List Int), R ⊆ V →
      (∀ x ∈ R, Relation.ReflTransGen (eRel V e) v x) →
      ∀ x ∈ reachN V e n R, Relation.ReflTransGen (eRel V e) v x := by
  intro n
  induction n with
  | zero => intro R _ hprop x hx; exact hprop x hx
  | succ n ih =>
    intro R hRV hprop x hx
    refine ih (stepFrontier V e R) (stepFrontier_subset V e R hRV) ?_ x hx
    intro y hy
    rcases List.mem_append.mp hy with hy | hy
    · exact hprop y hy
    · rcases List.mem_filter.mp hy with ⟨hyV, hcond⟩
      simp only [Bool.and_eq_true, List.any_eq_true] at hcond
      rcases hcond with ⟨_, u, hu, he⟩
      exact Relation.ReflTransGen.tail (hprop u hu) ⟨hRV hu, hyV, he⟩

theorem compOf_sound (V : List Int) (e : Int → Int → Bool) (v : Int)
    (hv : v ∈ V) (x : Int) (hx : x ∈ compOf V e v) :
    Relation.ReflTransGen (eRel V e) v x := by
  refine reachN_sound V e v V.length [v] ?_ ?_ x hx
  · intro y hy; rw [List.mem_singleton.mp hy]; exact hv
  · intro y hy; rw [List.mem_singleton.mp hy]

theorem compOf_complete (V : List Int) (e : Int → Int → Bool) (hV : V.Nodup)
    (v : Int) (hv : v ∈ V) (x : Int)
    (h : Relation.ReflTransGen (eRel V e) v x) : x ∈ compOf V e v := by
  induction h with
  | refl => exact mem_compOf_self V e v
  | tail _ hstep ih =>
    rcases hstep with ⟨_, hcV, he⟩
    exact compOf_closed V e hV v hv _ ih _ hcV he

theorem connB_iff (V : List Int) (e : Int → Int → Bool) (hV : V.Nodup)
    (u : Int) (hu : u ∈ V) (v : Int) :
    connB V e u v = true ↔ Relation.ReflTransGen (eRel V e) u v := by
  unfold connB
  rw [decide_eq_true_iff]
  exact ⟨compOf_sound V e u hu v, compOf_complete V e hV u hu v⟩

theorem connB_refl (V : List Int) (e : Int → Int → Bool) (u : Int) :
    connB V e u u = true := by
  unfold connB
  rw [decide_eq_true_iff]
  exact mem_compOf_self V e u

theorem rtg_symm {α : Type} {r : α → α → Prop}
    (hsym : ∀ a b, r a b → r b a) {a b : α}
    (h : Relation.ReflTransGen r a b) : Relation.ReflTransGen r b a := by
  induction h with
  | refl => exact Relation.ReflTransGen.refl
  | tail _ hstep ih => exact Relation.ReflTransGen.head (hsym _ _ hstep) ih

theorem rtg_target_mem (V : List Int) (e : Int → Int → Bool) {u v : Int}
    (h : Relation.ReflTransGen (eRel V e) u v) : u = v ∨ v ∈ V := by
  induction h with
  | refl => exact Or.inl rfl
  | tail _ hstep _ => exact Or.inr hstep.2.1

theorem connB_symm (V : List Int) (e : Int → Int → Bool) (hV : V.Nodup)
    (hsym : ∀ a b, e a b = e b a) (u v : Int) (hu : u ∈ V) (hv : v ∈ V)
    (h : connB V e u v = true) : connB V e v u = true := by
  rw [connB_iff V e hV u hu v] at h
  rw [connB_iff V e hV v hv u]
  refine rtg_symm ?_ h
  intro a b hab
  exact ⟨hab.2.1, hab.1, by rw [hsym]; exact hab.2.2⟩

theorem connB_trans (V : List Int) (e : Int → Int → Bool) (hV : V.Nodup)
    (u v w : Int) (hu : u ∈ V)
    (h1 : connB V e u v = true) (h2 : connB V e v w = true) :
    connB V e u w = true := by
  rw [connB_iff V e hV u hu v] at h1
  rw [connB_iff V e hV u hu w]
  rcases rtg_target_mem V e h1 with rfl | hvV
  · rw [connB_iff V e hV u hu w] at h2
    exact h2
  · rw [connB_iff V e hV v hvV w] at h2
    exact h1.trans h2

/-! ### Class representatives -/

theorem classRepsFuel_subset (conn : Int → Int → Bool) :
    ∀ (fuel : Nat) (l : List Int), classRepsFuel conn fuel l ⊆ l := by
  intro fuel
  induction fuel with
  | zero => intro l x hx; simp [classRepsFuel] at hx
  | succ n ih =>
    intro l x hx
    cases l with
    | nil => simp [classRepsFuel] at hx
    | cons v rest =>
      rcases List.mem_cons.mp hx with rfl | hx'
      · exact List.mem_cons_self _ _
      · exact List.mem_cons_of_mem _
          (List.mem_of_mem_filter (ih _ hx'))

theorem classRepsFuel_cover (conn : Int → Int → Bool)
    (hrefl : ∀ x, conn x x = true) :
    ∀ (fuel : Nat) (l : List Int), l.length ≤ fuel → ∀ x ∈ l,
      ∃ r ∈ classRepsFuel conn fuel l, conn r x = true := by
  intro fuel
  induction fuel with
  | zero =>
    intro l hl x hx
    rw [List.length_eq_zero.mp (Nat.le_zero.mp hl)] at hx
    exact absurd hx (List.not_mem_nil x)
  | succ n ih =>
    intro l hl x hx
    cases l with
    | nil => exact absurd hx (List.not_mem_nil x)
    | cons v rest =>
      rcases List.mem_cons.mp hx with heq | hx'
      · exact ⟨v, List.mem_cons_self _ _, by rw [heq]; exact hrefl v⟩
      · by_cases hvx : conn v x = true
        · exact ⟨v, List.mem_cons_self _ _, hvx⟩
        · have hxf : x ∈ rest.filter (fun u => !(conn v u)) := by
            rw [List.mem_filter]
            exact ⟨hx', by simp [hvx]⟩
          have hlen : (rest.filter (fun u => !(conn v u))).length ≤ n := by
            have := List.length_filter_le (fun u => !(conn v u)) rest
            simp only [List.length_cons] at hl
            omega
          rcases ih _ hlen x hxf with ⟨r, hr, hrx⟩
          exact ⟨r, List.mem_cons_of_mem _ hr, hrx⟩

theorem classRepsFuel_pairwise (conn : Int → Int → Bool) :
    ∀ (fuel : Nat) (l : List Int),
      (classRepsFuel conn fuel l).Pairwise
        (fun a b => conn a b = false) := by
  intro fuel
  induction fuel with
  | zero => intro l; simp [classRepsFuel]
  | succ n ih =>
    intro l
    cases l with
    | nil => simp [classRepsFuel]
    | cons v rest =>
      refine List.Pairwise.cons ?_ (ih _)
      intro r hr
      have := List.mem_filter.mp (classRepsFuel_subset conn n _ hr)
      simpa using this.2

theorem pairwise_rel_of_distinct {α : Type} {r : α → α → Prop} :
    ∀ {l : List α}, l.Pairwise r → ∀ {a b}, a ∈ l → b ∈ l → a ≠ b →
      r a b ∨ r b a := by
  intro l h
  induction h with
  | nil => intro a b ha; exact absurd ha (List.not_mem_nil a)
  | cons hhead _ ih =>
    intro a b ha hb hne
    rcases List.mem_cons.mp ha with rfl | ha'
    · rcases List.mem_cons.mp hb with rfl | hb'
      · exact absurd rfl hne
      · exact Or.inl (hhead b hb')
    · rcases List.mem_cons.mp hb with rfl | hb'
      · exact Or.inr (hhead a ha')
      · exact ih ha' hb' hne

/-! ### Components -/

theorem mem_compsOf_iff (V : List Int) (e : Int → Int → Bool)
    {mem : List Int} :
    mem ∈ compsOf V e ↔ ∃ r ∈ classReps (connB V e) V,
      mem = V.filter (fun w => connB V e r w) := by
  unfold compsOf
  rw [List.mem_map]
  constructor
  · rintro ⟨r, hr, rfl⟩; exact ⟨r, hr, rfl⟩
  · rintro ⟨r, hr, rfl⟩; exact ⟨r, hr, rfl⟩

theorem exists_mem_compsOf (V : List Int) (e : Int → Int → Bool)
    (x : Int) (hx : x ∈ V) : ∃ mem ∈ compsOf V e, x ∈ mem := by
  rcases classRepsFuel_cover (connB V e) (connB_refl V e) V.length V
    (le_refl _) x hx with ⟨r, hr, hrx⟩
  refine ⟨V.filter (fun w => connB V e r w), ?_, ?_⟩
  · exact (mem_compsOf_iff V e).mpr ⟨r, hr, rfl⟩
  · rw [List.mem_filter]; exact ⟨hx, hrx⟩

theorem compsOf_subset (V : List Int) (e : Int → Int → Bool)
    {mem : List Int} (h : mem ∈ compsOf V e) : mem ⊆ V := by
  rcases (mem_compsOf_iff V e).mp h with ⟨r, _, rfl⟩
  exact List.filter_subset' _

theorem compsOf_unique (V : List Int) (e : Int → Int → Bool) (hV : V.Nodup)
    (hsym : ∀ a b, e a b = e b a) {x : Int} {mem1 mem2 : List Int}
    (h1 : mem1 ∈ compsOf V e) (h2 : mem2 ∈ compsOf V e)
    (hx1 : x ∈ mem1) (hx2 : x ∈ mem2) : mem1 = mem2 := by
  rcases (mem_compsOf_iff V e).mp h1 with ⟨r1, hr1, rfl⟩
  rcases (mem_compsOf_iff V e).mp h2 with ⟨r2, hr2, rfl⟩
  rcases List.mem_filter.mp hx1 with ⟨hxV, hc1⟩
  rcases List.mem_filter.mp hx2 with ⟨_, hc2⟩
  have hr1V : r1 ∈ V := classRepsFuel_subset _ _ _ hr1
  have hr2V : r2 ∈ V := classRepsFuel_subset _ _ _ hr2
  have : r1 = r2 := by
    by_contra hne
    have hconn : connB V e r1 r2 = true :=
      connB_trans V e hV r1 x r2 hr1V hc1
        (connB_symm V e hV hsym r2 x hr2V hxV hc2)
    have hconn' : connB V e r2 r1 = true :=
      connB_symm V e hV hsym r1 r2 hr1V hr2V hconn
    rcases pairwise_rel_of_distinct (classRepsFuel_pairwise (connB V e) _ _)
      hr1 hr2 hne with hfalse | hfalse
    · rw [hconn] at hfalse; exact absurd hfalse (by simp)
    · rw [hconn'] at hfalse; exact absurd hfalse (by simp)
  rw [this]

theorem adj_mem_compsOf (V : List Int) (e : Int → Int → Bool) (hV : V.Nodup)
    {u v : Int} (hu : u ∈ V) (hv : v ∈ V) (he : e u v = true)
    {mem : List Int} (hmem : mem ∈ compsOf V e) (humem : u ∈ mem) :
    v ∈ mem := by
  rcases (mem_compsOf_iff V e).mp hmem with ⟨r, hr, rfl⟩
  rcases List.mem_filter.mp humem with ⟨_, hc⟩
  have hrV : r ∈ V := classRepsFuel_subset _ _ _ hr
  rw [List.mem_filter]
  refine ⟨hv, ?_⟩
  rw [connB_iff V e hV r hrV] at hc ⊢
  exact Relation.ReflTransGen.tail hc ⟨hu, hv, he⟩

theorem comp_members_connB (V : List Int) (e : Int → Int → Bool)
    (hV : V.Nodup) (hsym : ∀ a b, e a b = e b a) {u v : Int}
    {mem : List Int} (hmem : mem ∈ compsOf V e) (hu : u ∈ mem)
    (hv : v ∈ mem) : connB V e u v = true := by
  rcases (mem_compsOf_iff V e).mp hmem with ⟨r, hr, rfl⟩
  rcases List.mem_filter.mp hu with ⟨huV, hcu⟩
  rcases List.mem_filter.mp hv with ⟨_, hcv⟩
  have hrV : r ∈ V := classRepsFuel_subset _ _ _ hr
  exact connB_trans V e hV u r v huV
    (connB_symm V e hV hsym r u hrV huV hcu) hcv

/-! ## Admissible interpreter orders, dict shape, column membership -/

theorem validOrder_ordIdx : validOrder ordIdx := by
  intro idx cols
  refine ⟨List.nodup_dedup _, ?_⟩
  intro p
  simp [ordIdx, List.mem_dedup, List.mem_filter]

theorem validOrder_ordRev : validOrder ordRev := by
  intro idx cols
  constructor
  · unfold ordRev
    exact List.nodup_reverse.mpr (List.nodup_dedup _)
  · intro p
    simp [ordRev, List.mem_reverse, List.mem_dedup, List.mem_filter]

theorem forall2_mem_left {α β : Type} {r : α → β → Prop} :
    ∀ {l₁ : List α} {l₂ : List β}, List.Forall₂ r l₁ l₂ → ∀ a ∈ l₁,
      ∃ b ∈ l₂, r a b := by
  intro l₁ l₂ h
  induction h with
  | nil => intro a ha; exact absurd ha (List.not_mem_nil a)
  | cons hr _ ih =>
    intro a ha
    rcases List.mem_cons.mp ha with rfl | ha'
    · exact ⟨_, List.mem_cons_self _ _, hr⟩
    · rcases ih a ha' with ⟨b, hb, hbr⟩
      exact ⟨b, List.mem_cons_of_mem _ hb, hbr⟩

/-- With pairwise-distinct positions, the row labels of `t` are exactly the
    positions of the chromosome's rows, in order. -/
theorem indexOf_eq_of_char {f : LDSource} {chrom : String}
    {tdf : List Variant} {d : LDDict}
    (hall : List.Forall₂
      (fun v ent => ent.1 = v.pos ∧ partners? f chrom v.pos = .ok ent.2)
      tdf d) :
    indexOf d = tdf.map (fun v => v.pos) := by
  induction hall with
  | nil => rfl
  | cons hr _ ih =>
    simp only [indexOf, List.map_cons] at ih ⊢
    rw [ih, hr.1]

theorem mem_colsOf {d : LDDict} {q : Int} :
    q ∈ colsOf d ↔ ∃ ent ∈ d, q ∈ ent.2 := by
  unfold colsOf
  rw [(List.perm_insertionSort (fun a b => a ≤ b) _).mem_iff,
    List.mem_dedup, List.mem_flatMap]

theorem dictGet_of_char {f : LDSource} {chrom : String} :
    ∀ {tdf : List Variant} {d : LDDict},
      List.Forall₂
        (fun v ent => ent.1 = v.pos ∧ partners? f chrom v.pos = .ok ent.2)
        tdf d →
      (tdf.map (fun v => v.pos)).Nodup →
      ∀ v ∈ tdf, ∀ ps, partners? f chrom v.pos = .ok ps →
        dictGet d v.pos = ps := by
  intro tdf d hall
  induction hall with
  | nil => intro _ v hv; exact absurd hv (List.not_mem_nil v)
  | cons hr hrest ih =>
    rename_i u ent tdf' d'
    intro hn v hv ps hps
    simp only [List.map_cons, List.nodup_cons] at hn
    rcases List.mem_cons.mp hv with rfl | hv'
    · unfold dictGet
      have : (ent.1 == v.pos) = true := by simp [hr.1]
      simp only [List.find?_cons, this]
      have := hr.2
      rw [hps] at this
      simpa using (Except.ok.inj this).symm
    · have hne : (ent.1 == v.pos) = false := by
        simp only [beq_eq_false_iff_ne, ne_eq, hr.1]
        intro hc
        exact hn.1 (hc ▸ List.mem_map_of_mem (fun x => x.pos) hv')
      unfold dictGet
      simp only [List.find?_cons, hne]
      exact ih hn.2 v hv' ps hps

/-! ## Claim theorems -/

/-- C2 (confirmed).  For every input variant table and LD-source mapping, a
    successful `ld_prune` returns only rows whose index key is an index key of
    the input (no LD partner that was not already an input variant is
    introduced), and at most as many rows as the input has. -/
theorem C2_prune_subset (pi : List Int → List Int → List Int)
    (L : List (String × LDSource)) (df out : List Variant)
    (h : ld_prune pi L df = .ok out) :
    out.length ≤ df.length ∧ ∀ v ∈ out, keyOf v ∈ df.map keyOf := by
  rcases (ld_prune_ok_iff pi L df out).mp h with ⟨kss, _, rfl⟩
  refine ⟨List.length_filter_le _ _, ?_⟩
  intro v hv
  exact List.mem_map_of_mem keyOf (List.mem_of_mem_filter hv)

/-- Witness for C2 at a concrete input (the tie-break fixture). -/
theorem C2_witness :
    ([⟨"chr1", 105, mkRat 1 1000⟩] : List Variant).length ≤
        tblTriple.length ∧
      ∀ v ∈ ([⟨"chr1", 105, mkRat 1 1000⟩] : List Variant),
        keyOf v ∈ tblTriple.map keyOf :=
  C2_prune_subset ordIdx [("chr1", srcTriple)] tblTriple
    [⟨"chr1", 105, mkRat 1 1000⟩] (by decide)

/-- C1 (counterexample).  A chromosome (chr1) absent from the LD-source
    mapping is not passed through: `ld_prune` drops its variant (output empty,
    though the claim requires it kept) and `ld_expand` emits no interval at
    all for it (though the claim requires its self-interval). -/
theorem C1_counterexample :
    ld_prune ordIdx [("chr2", srcEmpty)] [⟨"chr1", 5, mkRat 1 100⟩] =
        .ok [] ∧
      ld_expand [("chr2", srcEmpty)] [⟨"chr1", 5, mkRat 1 100⟩] = .ok [] :=
  ⟨by decide, by decide⟩

/-- C1 (amended).  Both functions iterate over the keys of `ld_beds` only, so
    every variant whose chromosome is not a key of the mapping is dropped:
    `ld_prune` never returns such a row (proved generally), and `ld_expand`
    emits no interval for it (shown on the concrete configuration); no error
    is raised in either case. -/
theorem C1_amended_dropped :
    (∀ (pi : List Int → List Int → List Int) (L : List (String × LDSource))
        (df out : List Variant) (v : Variant), v ∈ df →
        v.chrom ∉ L.map Prod.fst → ld_prune pi L df = .ok out → v ∉ out) ∧
      ld_expand [("chr2", srcEmpty)] [⟨"chr3", 7, mkRat 1 100⟩] = .ok [] := by
  constructor
  · intro pi L df out v _ hchrom h hv
    rcases (ld_prune_ok_iff pi L df out).mp h with ⟨kss, hall, rfl⟩
    have hk : keyOf v ∈ kss.flatten := by
      have := (List.mem_filter.mp hv).2
      simpa using this
    exact hchrom (mem_keep_chrom hall (keyOf v) hk)
  · decide

/-- Witness for the amended C1: the hypotheses are satisfiable at the dropped
    variant of the concrete configuration. -/
theorem C1_witness :
    (⟨"chr3", 7, mkRat 1 100⟩ : Variant) ∈
        ([⟨"chr3", 7, mkRat 1 100⟩] : List Variant) ∧
      "chr3" ∉ ["chr2"] ∧
      (⟨"chr3", 7, mkRat 1 100⟩ : Variant) ∉ ([] : List Variant) :=
  ⟨by decide, by decide,
    C1_amended_dropped.1 ordIdx [("chr2", srcEmpty)]
      [⟨"chr3", 7, mkRat 1 100⟩] [] ⟨"chr3", 7, mkRat 1 100⟩
      (by decide) (by decide) (by decide)⟩

/-- C6 (counterexample).  When the source answers the point query at chr1
    position 100 with the record `100:100:0.9`, the graph builder records 100
    in its own qualifying-partner list: there is no self-loop guard. -/
theorem C6_counterexample :
    ld_d_of srcSelf "chr1" [⟨"chr1", 100, mkRat 1 100⟩] =
      .ok [(100, [100])] := by decide

theorem collect_step_append (acc : List Int) (n : LDRecord) (r : List Int)
    (h : (match parseLast n.flast with
          | .error e => Except.error e
          | .ok none => Except.ok acc
          | .ok (some p2) => Except.ok (acc ++ [p2])) = Except.ok r) :
    ∃ ext, r = acc ++ ext := by
  cases hp : parseLast n.flast with
  | error e => rw [hp] at h; exact absurd h (by simp)
  | ok o =>
    rw [hp] at h
    cases o with
    | none => exact ⟨[], by simpa using (Except.ok.inj h).symm⟩
    | some p2 => exact ⟨[p2], (Except.ok.inj h).symm⟩

theorem collect_fold_mem :
    ∀ (recs : List LDRecord) (acc ps : List Int),
      recs.foldlM
        (fun acc n =>
          match parseLast n.flast with
          | .error e => Except.error e
          | .ok none => Except.ok acc
          | .ok (some p2) => Except.ok (acc ++ [p2])) acc = Except.ok ps →
      ∀ n ∈ recs, ∀ p, parseLast n.flast = .ok (some p) → p ∈ ps := by
  intro recs
  induction recs with
  | nil => intro acc ps _ n hn; exact absurd hn (List.not_mem_nil n)
  | cons m rest ih =>
    intro acc ps h n hn p hp
    simp only [List.foldlM_cons] at h
    cases hm : parseLast m.flast with
    | error e => rw [hm] at h; exact absurd h (by simp)
    | ok o =>
      rw [hm] at h
      rcases List.mem_cons.mp hn with rfl | hn'
      · rw [hp] at hm
        cases hm
        simp only [except_ok_bind] at h
        rcases foldlM_append_char _ collect_step_append rest (acc ++ [p]) ps
          h with ⟨ext, rfl⟩
        simp
      · cases o with
        | none => simp only [except_ok_bind] at h; exact ih acc ps h n hn' p hp
        | some q =>
          simp only [except_ok_bind] at h
          exact ih (acc ++ [q]) ps h n hn' p hp

/-- C6 (amended).  Any record whose trailing field parses to a qualifying
    partner equal to the queried position itself is appended to that
    position's own partner list, like any other record: the loop applies no
    self-loop filter. -/
theorem C6_amended_self_recorded (recs : List LDRecord) (ps : List Int)
    (p : Int) (h : collectPartners recs = .ok ps) (n : LDRecord)
    (hn : n ∈ recs) (hp : parseLast n.flast = .ok (some p)) : p ∈ ps :=
  collect_fold_mem recs [] ps h n hn p hp

/-- Witness for the amended C6: the self-record of the concrete fixture is
    recorded in position 100's own list. -/
theorem C6_witness : (100 : Int) ∈ ([100] : List Int) :=
  C6_amended_self_recorded [mkRec "chr1" "100:100:0.9"] [100] 100 (by decide)
    (mkRec "chr1" "100:100:0.9") (by decide) (by decide)

/-- C7 (code bug).  At a source whose point query raises the "not found"
    condition, `ld_expand` treats the query as returning zero partners and
    still emits the self-interval, but `ld_prune` aborts the whole call with
    `NameError`: its handler `except TabixError:` names `TabixError`, which
    the module never imports or binds (it only does `import tabix`), so
    handling the exception raises `NameError` instead of continuing. -/
theorem C7_notfound_eval :
    ld_prune ordIdx [("chr1", srcNone)] [⟨"chr1", 100, mkRat 1 100⟩] =
        .error .nameError ∧
      ld_expand [("chr1", srcNone)] [⟨"chr1", 100, mkRat 1 100⟩] =
        .ok [⟨"chr1", 99, 100, ("chr1", 100)⟩] :=
  ⟨by decide, by decide⟩

/-- C8 (counterexample).  With chr1's well-formed source listed first and a
    malformed record on chr2, `ld_prune` aborts the whole call (the parse
    `ValueError` reaches the broken `except TabixError:` clause, whose
    evaluation of the unbound name raises `NameError`): chr1 produces no
    result in any merged output, contradicting the claim's isolation
    property. -/
theorem C8_counterexample :
    ld_prune ordIdx [("chr1", srcEmpty), ("chr2", srcBad)]
      [⟨"chr1", 100, mkRat 1 100⟩, ⟨"chr2", 7, mkRat 1 100⟩] =
      .error .nameError := by decide

/-! ## Order lemmas for the `BedTool.sort()` relation -/

theorem strLtb_nil_cons (b : Char) (bs : List Char) :
    strLtb [] (b :: bs) = true := rfl

theorem strLtb_not_nil (as : List Char) : strLtb as [] = false := by
  cases as <;> rfl

theorem strLtb_cons (a b : Char) (as bs : List Char) :
    strLtb (a :: as) (b :: bs) = true ↔
      a < b ∨ (a = b ∧ strLtb as bs = true) := by
  by_cases h1 : a < b
  · simp [strLtb, h1]
  · by_cases h2 : a = b
    · simp [strLtb, h1, h2]
    · simp [strLtb, h1, h2]

theorem strLtb_trans : ∀ as bs cs, strLtb as bs = true → strLtb bs cs = true →
    strLtb as cs = true := by
  intro as
  induction as with
  | nil =>
    intro bs cs h1 h2
    cases bs with
    | nil => simp [strLtb] at h1
    | cons b bs' =>
      cases cs with
      | nil => rw [strLtb_not_nil] at h2; exact absurd h2 (by simp)
      | cons c cs' => exact strLtb_nil_cons c cs'
  | cons a as' ih =>
    intro bs cs h1 h2
    cases bs with
    | nil => simp [strLtb] at h1
    | cons b bs' =>
      cases cs with
      | nil => rw [strLtb_not_nil] at h2; exact absurd h2 (by simp)
      | cons c cs' =>
        rw [strLtb_cons] at h1 h2 ⊢
        rcases h1 with h1 | ⟨rfl, h1⟩
        · rcases h2 with h2 | ⟨rfl, h2⟩
          · exact Or.inl (lt_trans h1 h2)
          · exact Or.inl h1
        · rcases h2 with h2 | ⟨rfl, h2⟩
          · exact Or.inl h2
          · exact Or.inr ⟨rfl, ih bs' cs' h1 h2⟩

theorem strLtb_connex : ∀ as bs, strLtb as bs = false → strLtb bs as = false →
    as = bs := by
  intro as
  induction as with
  | nil =>
    intro bs h1 _
    cases bs with
    | nil => rfl
    | cons b bs' => exact absurd (strLtb_nil_cons b bs') (by simp [h1])
  | cons a as' ih =>
    intro bs h1 h2
    cases bs with
    | nil => exact absurd (strLtb_nil_cons a as') (by simp [h2])
    | cons b bs' =>
      rcases lt_trichotomy a b with hlt | heq | hgt
      · have : strLtb (a :: as') (b :: bs') = true :=
          (strLtb_cons a b as' bs').mpr (Or.inl hlt)
        exact absurd this (by simp [h1])
      · subst heq
        have e1 : strLtb as' bs' = false := by
          by_contra hc
          have : strLtb (a :: as') (a :: bs') = true :=
            (strLtb_cons a a as' bs').mpr
              (Or.inr ⟨rfl, eq_true_of_ne_false hc⟩)
          exact absurd this (by simp [h1])
        have e2 : strLtb bs' as' = false := by
          by_contra hc
          have : strLtb (a :: bs') (a :: as') = true :=
            (strLtb_cons a a bs' as').mpr
              (Or.inr ⟨rfl, eq_true_of_ne_false hc⟩)
          exact absurd this (by simp [h2])
        rw [ih bs' e1 e2]
      · have : strLtb (b :: bs') (a :: as') = true :=
          (strLtb_cons b a bs' as').mpr (Or.inl hgt)
        exact absurd this (by simp [h2])

theorem ivLE_iff (a b : Interval) :
    ivLE a b ↔
      strLtb a.chrom.toList b.chrom.toList = true ∨
        (a.chrom = b.chrom ∧
          (a.start < b.start ∨ (a.start = b.start ∧ a.stop ≤ b.stop))) := by
  unfold ivLE ivLEb
  simp [Bool.or_eq_true, Bool.and_eq_true]

theorem ivLE_total : ∀ a b : Interval, ivLE a b ∨ ivLE b a := by
  intro a b
  by_cases h1 : strLtb a.chrom.toList b.chrom.toList = true
  · exact Or.inl ((ivLE_iff a b).mpr (Or.inl h1))
  · by_cases h2 : strLtb b.chrom.toList a.chrom.toList = true
    · exact Or.inr ((ivLE_iff b a).mpr (Or.inl h2))
    · have hc : a.chrom = b.chrom :=
        String.ext (strLtb_connex _ _ (Bool.eq_false_iff.mpr h1)
          (Bool.eq_false_iff.mpr h2))
      rcases lt_trichotomy a.start b.start with hs | hs | hs
      · exact Or.inl ((ivLE_iff a b).mpr (Or.inr ⟨hc, Or.inl hs⟩))
      · rcases le_total a.stop b.stop with ht | ht
        · exact Or.inl ((ivLE_iff a b).mpr (Or.inr ⟨hc, Or.inr ⟨hs, ht⟩⟩))
        · exact Or.inr ((ivLE_iff b a).mpr
            (Or.inr ⟨hc.symm, Or.inr ⟨hs.symm, ht⟩⟩))
      · exact Or.inr ((ivLE_iff b a).mpr (Or.inr ⟨hc.symm, Or.inl hs⟩))

theorem ivLE_trans : ∀ a b c : Interval, ivLE a b → ivLE b c → ivLE a c := by
  intro a b c hab hbc
  rw [ivLE_iff] at hab hbc ⊢
  rcases hab with hab | ⟨habc, hab⟩
  · rcases hbc with hbc | ⟨hbcc, _⟩
    · exact Or.inl (strLtb_trans _ _ _ hab hbc)
    · rw [hbcc] at hab
      exact Or.inl hab
  · rcases hbc with hbc | ⟨hbcc, hbc⟩
    · rw [habc]
      exact Or.inl hbc
    · refine Or.inr ⟨habc.trans hbcc, ?_⟩
      rcases hab with hab | ⟨habs, hab⟩
      · rcases hbc with hbc | ⟨hbcs, _⟩
        · exact Or.inl (lt_trans hab hbc)
        · rw [hbcs] at hab
          exact Or.inl hab
      · rcases hbc with hbc | ⟨hbcs, hbc⟩
        · rw [habs]
          exact Or.inl hbc
        · exact Or.inr ⟨habs.trans hbcs, le_trans hab hbc⟩

instance : IsTotal Interval ivLE := ⟨ivLE_total⟩

instance : IsTrans Interval ivLE := ⟨ivLE_trans⟩

theorem ivLE_byChromStart (a b : Interval) (h : ivLE a b) :
    byChromStart a b := by
  rw [ivLE_iff] at h
  unfold byChromStart
  rcases h with h | ⟨hc, h⟩
  · exact Or.inl h
  · refine Or.inr ⟨hc, ?_⟩
    rcases h with h | ⟨hs, _⟩
    · exact le_of_lt h
    · exact le_of_eq hs

/-! ## Length accounting for `ld_expand` -/

theorem expandRecord_append (acc : List Interval) (n : LDRecord)
    (r : List Interval)
    (h : (match expandRecord n with
          | .error e => Except.error e
          | .ok ivs => Except.ok (acc ++ ivs)) = Except.ok r) :
    ∃ ext, r = acc ++ ext := by
  cases hn : expandRecord n with
  | error e => rw [hn] at h; exact absurd h (by simp)
  | ok ivs =>
    rw [hn] at h
    exact ⟨ivs, (Except.ok.inj h).symm⟩

theorem expandVariant_ok_length (f : LDSource) (chrom : String) (v : Variant)
    (ivs : List Interval) (h : expandVariant f chrom v = .ok ivs) :
    1 ≤ ivs.length := by
  unfold expandVariant at h
  cases hq : f chrom (v.pos - 1) v.pos with
  | none =>
    rw [hq] at h
    rw [← Except.ok.inj h]
    simp
  | some recs =>
    rw [hq] at h
    rcases foldlM_append_char _ expandRecord_append recs _ ivs h with ⟨ext, rfl⟩
    simp

theorem expand_inner_length (f : LDSource) (chrom : String) :
    ∀ (rows : List Variant) (acc res : List Interval),
      rows.foldlM
        (fun acc2 v =>
          match expandVariant f chrom v with
          | .error e => Except.error e
          | .ok ivs => Except.ok (acc2 ++ ivs)) acc = .ok res →
      acc.length + rows.length ≤ res.length := by
  intro rows acc res h
  have := foldlM_length_ge _ (fun _ => 1) ?_ rows acc res h
  · simpa using this
  · intro acc2 x r hr
    cases hx : expandVariant f chrom x with
    | error e => rw [hx] at hr; exact absurd hr (by simp)
    | ok ivs =>
      rw [hx] at hr
      rw [← Except.ok.inj hr]
      have := expandVariant_ok_length f chrom x ivs hx
      simp only [List.length_append]
      omega

theorem filter_mem_length_le (df : List Variant) (c : String)
    (cs : List String) :
    (df.filter (fun v => decide (v.chrom ∈ c :: cs))).length ≤
      (df.filter (fun v => v.chrom == c)).length +
        (df.filter (fun v => decide (v.chrom ∈ cs))).length := by
  induction df with
  | nil => simp
  | cons v rest ih =>
    by_cases h1 : v.chrom = c
    · have hP : (List.filter (fun v => decide (v.chrom ∈ c :: cs))
          (v :: rest)) =
          v :: List.filter (fun v => decide (v.chrom ∈ c :: cs)) rest := by
        simp [List.filter_cons, h1]
      have hQ : (List.filter (fun v => v.chrom == c) (v :: rest)) =
          v :: List.filter (fun v => v.chrom == c) rest := by
        simp [List.filter_cons, h1]
      rw [hP, hQ]
      by_cases h2 : v.chrom ∈ cs
      · have hR : (List.filter (fun v => decide (v.chrom ∈ cs)) (v :: rest)) =
            v :: List.filter (fun v => decide (v.chrom ∈ cs)) rest := by
          simp [List.filter_cons, h2]
        rw [hR]
        simp only [List.length_cons]
        omega
      · have hR : (List.filter (fun v => decide (v.chrom ∈ cs)) (v :: rest)) =
            List.filter (fun v => decide (v.chrom ∈ cs)) rest := by
          simp [List.filter_cons, h2]
        rw [hR]
        simp only [List.length_cons]
        omega
    · have hQ : (List.filter (fun v => v.chrom == c) (v :: rest)) =
          List.filter (fun v => v.chrom == c) rest := by
        simp [List.filter_cons, h1]
      rw [hQ]
      by_cases h2 : v.chrom ∈ cs
      · have hP : (List.filter (fun v => decide (v.chrom ∈ c :: cs))
            (v :: rest)) =
            v :: List.filter (fun v => decide (v.chrom ∈ c :: cs)) rest := by
          simp [List.filter_cons, h2]
        have hR : (List.filter (fun v => decide (v.chrom ∈ cs)) (v :: rest)) =
            v :: List.filter (fun v => decide (v.chrom ∈ cs)) rest := by
          simp [List.filter_cons, h2]
        rw [hP, hR]
        simp only [List.length_cons]
        omega
      · have hP : (List.filter (fun v => decide (v.chrom ∈ c :: cs))
            (v :: rest)) =
            List.filter (fun v => decide (v.chrom ∈ c :: cs)) rest := by
          simp [List.filter_cons, h1, h2]
        have hR : (List.filter (fun v => decide (v.chrom ∈ cs)) (v :: rest)) =
            List.filter (fun v => decide (v.chrom ∈ cs)) rest := by
          simp [List.filter_cons, h2]
        rw [hP, hR]
        exact ih

theorem covered_count_le (df : List Variant) :
    ∀ (L : List (String × LDSource)),
      (df.filter (fun v => decide (v.chrom ∈ L.map Prod.fst))).length ≤
        (L.map
          (fun cf => (df.filter (fun v => v.chrom == cf.1)).length)).sum := by
  intro L
  induction L with
  | nil => simp
  | cons cf rest ih =>
    simp only [List.map_cons, List.sum_cons]
    calc (df.filter (fun v =>
            decide (v.chrom ∈ (cf :: rest).map Prod.fst))).length
        ≤ (df.filter (fun v => v.chrom == cf.1)).length +
            (df.filter (fun v =>
              decide (v.chrom ∈ rest.map Prod.fst))).length := by
          simpa using filter_mem_length_le df cf.1 (rest.map Prod.fst)
      _ ≤ _ := by omega

/-- A successful run of `ld_expand` is the sort of some interval list produced
    by the fold. -/
theorem ld_expand_ok (L : List (String × LDSource)) (df : List Variant)
    (out : List Interval) (h : ld_expand L df = .ok out) :
    ∃ ivs, L.foldlM
        (fun acc cf =>
          (df.filter (fun v => v.chrom == cf.1)).foldlM
            (fun acc2 v =>
              match expandVariant cf.2 cf.1 v with
              | .error e => Except.error e
              | .ok ivs => Except.ok (acc2 ++ ivs))
            acc)
        ([] : List Interval) = .ok ivs ∧
      out = List.insertionSort ivLE ivs := by
  unfold ld_expand at h
  cases hf : L.foldlM
      (fun acc cf =>
        (df.filter (fun v => v.chrom == cf.1)).foldlM
          (fun acc2 v =>
            match expandVariant cf.2 cf.1 v with
            | .error e => Except.error e
            | .ok ivs => Except.ok (acc2 ++ ivs))
          acc)
      ([] : List Interval) with
  | error e => rw [hf] at h; exact absurd h (by simp)
  | ok ivs =>
    rw [hf] at h
    exact ⟨ivs, rfl, (Except.ok.inj h).symm⟩

/-- C3 (amended).  A successful `ld_expand` returns at least one interval per
    input variant whose chromosome is a key of the LD-source mapping (variants
    on unlisted chromosomes contribute nothing, see C1), and the returned
    collection is sorted by (chromosome, start). -/
theorem C3_amended_size_sorted (L : List (String × LDSource))
    (df : List Variant) (out : List Interval)
    (h : ld_expand L df = .ok out) :
    (df.filter (fun v => decide (v.chrom ∈ L.map Prod.fst))).length ≤
        out.length ∧
      List.Pairwise byChromStart out := by
  rcases ld_expand_ok L df out h with ⟨ivs, hf, rfl⟩
  constructor
  · rw [List.length_insertionSort]
    calc (df.filter (fun v => decide (v.chrom ∈ L.map Prod.fst))).length
        ≤ (L.map (fun cf =>
            (df.filter (fun v => v.chrom == cf.1)).length)).sum :=
          covered_count_le df L
      _ ≤ ivs.length := by
          have := foldlM_length_ge _
            (fun cf => (df.filter (fun v => v.chrom == cf.1)).length)
            ?_ L [] ivs hf
          · simpa using this
          · intro acc cf r hr
            exact expand_inner_length cf.2 cf.1 _ acc r hr
  · exact (List.sorted_insertionSort ivLE ivs).imp
      (fun hab => ivLE_byChromStart _ _ hab)

/-- Witness for the amended C3 at a concrete two-chromosome input. -/
theorem C3_witness :
    (([⟨"chr2", 5, mkRat 1 100⟩, ⟨"chr1", 8, mkRat 1 100⟩] :
        List Variant).filter
      (fun v => decide (v.chrom ∈
        ([("chr2", srcChr2), ("chr1", srcEmpty)].map Prod.fst)))).length ≤
        ([⟨"chr1", 7, 8, ("chr1", 8)⟩, ⟨"chr2", 2, 3, ("chr2", 3)⟩,
          ⟨"chr2", 4, 5, ("chr2", 5)⟩] : List Interval).length ∧
      List.Pairwise byChromStart
        [⟨"chr1", 7, 8, ("chr1", 8)⟩, ⟨"chr2", 2, 3, ("chr2", 3)⟩,
          ⟨"chr2", 4, 5, ("chr2", 5)⟩] :=
  C3_amended_size_sorted [("chr2", srcChr2), ("chr1", srcEmpty)]
    [⟨"chr2", 5, mkRat 1 100⟩, ⟨"chr1", 8, mkRat 1 100⟩] _ (by decide)

/-- C3 (counterexample).  With the single input variant on chr4 and an
    LD-source mapping lacking chr4, `ld_expand` returns the empty collection:
    its size is smaller than the input's, contradicting the claim. -/
theorem C3_counterexample :
    ld_expand [("chr2", srcEmpty)] [⟨"chr4", 9, mkRat 1 100⟩] = .ok [] ∧
      ([] : List Interval).length <
        ([⟨"chr4", 9, mkRat 1 100⟩] : List Variant).length :=
  ⟨by decide, by decide⟩

/-- C8 (amended).  A record whose trailing field does not parse as
    `pos:pos:float` makes both functions raise rather than silently skip —
    `ld_expand` raises the parse `ValueError` itself, while in `ld_prune` the
    `ValueError` reaches the broken `except TabixError:` clause and the call
    aborts with `NameError` — and in either function the exception aborts the
    entire call: no chromosome (not even a fault-free one) produces
    results. -/
theorem C8_amended_raise_aborts_all :
    ld_prune ordIdx [("chr1", srcBad)] [⟨"chr1", 100, mkRat 1 100⟩] =
        .error .nameError ∧
      ld_expand [("chr1", srcBad)] [⟨"chr1", 100, mkRat 1 100⟩] =
        .error .valueError ∧
      ld_expand [("chr1", srcEmpty), ("chr2", srcBad)]
        [⟨"chr1", 100, mkRat 1 100⟩, ⟨"chr2", 7, mkRat 1 100⟩] =
        .error .valueError :=
  ⟨by decide, by decide, by decide⟩

theorem classRepsFuel_nil (conn : Int → Int → Bool) (fuel : Nat) :
    classRepsFuel conn fuel [] = [] := by
  cases fuel <;> rfl

/-- When one vertex is connected to every vertex, the whole vertex list forms
    a single component. -/
theorem compsOf_all_conn (V : List Int) (e : Int → Int → Bool) (v0 : Int)
    (rest : List Int) (hVeq : V = v0 :: rest)
    (hall : ∀ u ∈ V, connB V e v0 u = true) :
    compsOf V e = [V] := by
  have hfil : rest.filter (fun u => !(connB V e v0 u)) = [] := by
    rw [List.filter_eq_nil_iff]
    intro u hu
    rw [hall u (by rw [hVeq]; exact List.mem_cons_of_mem _ hu)]
    simp
  have hreps : classReps (connB V e) V = [v0] := by
    set conn := connB V e with hconn
    unfold classReps
    rw [hVeq]
    simp only [List.length_cons]
    show v0 :: classRepsFuel conn rest.length
      (rest.filter (fun u => !(conn v0 u))) = [v0]
    rw [hfil, classRepsFuel_nil]
  unfold compsOf
  rw [hreps]
  simp only [List.map_cons, List.map_nil]
  rw [List.filter_eq_self.mpr (fun w hw => hall w hw)]

theorem find?_eq_some_of_unique {α : Type} (p : α → Bool) :
    ∀ (l : List α) (a : α), a ∈ l → p a = true →
      (∀ x ∈ l, p x = true → x = a) → l.find? p = some a := by
  intro l
  induction l with
  | nil => intro a ha; exact absurd ha (List.not_mem_nil a)
  | cons h t ih =>
    intro a ha hpa huniq
    by_cases hph : p h = true
    · have : h = a := huniq h (List.mem_cons_self _ _) hph
      rw [List.find?_cons, hph, this]
    · have hph' : p h = false := Bool.eq_false_iff.mpr hph
      have ha' : a ∈ t := by
        rcases List.mem_cons.mp ha with rfl | h'
        · rw [hpa] at hph'; exact absurd hph' (by simp)
        · exact h'
      rw [List.find?_cons, hph']
      exact ih a ha' hpa (fun x hx => huniq x (List.mem_cons_of_mem _ hx))

/-- Over any admissible interpreter order, the representative computed for the
    tie-break scenario's single component is the label of position 105. -/
theorem repsOf_triple (pi : List Int → List Int → List Int)
    (hpi : validOrder pi) :
    repsOf pi tblTriple dTriple = [(("chr1", 105) : VKey)] := by
  have hidx : indexOf dTriple = [100, 105, 110] := by decide
  have hcols : colsOf dTriple = [100, 105, 110] := by decide
  have hVdef : indOf pi dTriple = pi [100, 105, 110] [100, 105, 110] := by
    unfold indOf
    rw [hidx, hcols]
  set V := indOf pi dTriple with hV
  have hVnodup : V.Nodup := by rw [hVdef]; exact (hpi _ _).1
  have hVmem : ∀ p, p ∈ V ↔ p ∈ ([100, 105, 110] : List Int) := by
    intro p
    rw [hVdef, (hpi [100, 105, 110] [100, 105, 110]).2 p]
    exact and_self_iff
  have hVne : V ≠ [] := List.ne_nil_of_mem ((hVmem 100).mpr (by decide))
  obtain ⟨v0, rest, hVeq⟩ := List.exists_cons_of_ne_nil hVne
  have hadj : ∀ a b : Int, a ∈ V → b ∈ V → a ≠ b →
      edgeB dTriple a b = true := by
    intro a b ha hb hne
    have ha' := (hVmem a).mp ha
    have hb' := (hVmem b).mp hb
    simp only [List.mem_cons, List.not_mem_nil, or_false] at ha' hb'
    rcases ha' with rfl | rfl | rfl <;> rcases hb' with rfl | rfl | rfl <;>
      first
        | exact absurd rfl hne
        | decide
  have hv0V : v0 ∈ V := by rw [hVeq]; exact List.mem_cons_self _ _
  have hall : ∀ u ∈ V, connB V (edgeB dTriple) v0 u = true := by
    intro u hu
    by_cases heq : v0 = u
    · rw [← heq]; exact connB_refl _ _ _
    · rw [connB_iff V _ hVnodup v0 hv0V u]
      exact Relation.ReflTransGen.tail Relation.ReflTransGen.refl
        ⟨hv0V, hu, hadj v0 u hv0V hu heq⟩
  have hcomps : compsOf V (edgeB dTriple) = [V] :=
    compsOf_all_conn V (edgeB dTriple) v0 rest hVeq hall
  have hv105 : (⟨"chr1", 105, mkRat 1 1000⟩ : Variant) ∈
      sRows tblTriple V :=
    mem_sRows.mpr ⟨by decide, (hVmem 105).mpr (by decide)⟩
  have hpvals_ne : (sRows tblTriple V).map (fun v => v.pvalue) ≠ [] := by
    intro hc
    rw [List.map_eq_nil_iff] at hc
    rw [hc] at hv105
    exact List.not_mem_nil _ hv105
  obtain ⟨m, hm⟩ := listMinQ_of_ne_nil _ hpvals_ne
  have hmle : m ≤ mkRat 1 1000 :=
    listMinQ_le _ m hm _ (List.mem_map_of_mem _ hv105)
  have hmge : mkRat 1 1000 ≤ m := by
    rcases List.mem_map.mp (listMinQ_mem _ m hm) with ⟨r, hr, hrp⟩
    have hrt : r ∈ tblTriple := (mem_sRows.mp hr).1
    have hlb : ∀ x ∈ tblTriple, mkRat 1 1000 ≤ x.pvalue := by decide
    rw [← hrp]
    exact hlb r hrt
  have hmeq : m = mkRat 1 1000 := le_antisymm hmle hmge
  have hfind : (sRows tblTriple V).find?
      (fun v => v.pvalue == mkRat 1 1000) =
      some ⟨"chr1", 105, mkRat 1 1000⟩ := by
    refine find?_eq_some_of_unique _ _ _ hv105 (by decide) ?_
    intro x hx hpx
    have hxt : x ∈ tblTriple := (mem_sRows.mp hx).1
    have huniq : ∀ y ∈ tblTriple, y.pvalue = mkRat 1 1000 →
        y = (⟨"chr1", 105, mkRat 1 1000⟩ : Variant) := by decide
    exact huniq x hxt (by simpa using hpx)
  have hrep : repKey? tblTriple V =
      some (("chr1", 105) : VKey) := by
    unfold repKey?
    rw [hm, hmeq]
    simp only [hfind, Option.map_some']
    rfl
  unfold repsOf
  rw [← hV, hcomps]
  simp [hrep]

/-- C4 (counterexample).  Two variants at chr1 positions 100 and 105, linked
    to each other at r-squared 0.9, with equal p-values 0.01.  The claim's
    table-order tie-break demands that position 100 (first in table order) be
    kept; under the admissible interpreter set order `ordRev` the code keeps
    position 105 instead (and under `ordIdx` position 100): the tie-break
    depends on the interpreter's set iteration order, not on table order. -/
theorem C4_counterexample :
    validOrder ordRev ∧
      ld_prune ordRev [("chr1", srcPair)] tblPair =
        .ok [⟨"chr1", 105, mkRat 1 100⟩] ∧
      ld_prune ordIdx [("chr1", srcPair)] tblPair =
        .ok [⟨"chr1", 100, mkRat 1 100⟩] :=
  ⟨validOrder_ordRev, by decide, by decide⟩

/-- C4 (amended).  Each component's computed representative is the label of a
    component row attaining the minimal p-value (ties resolved by the
    enumeration order of the component, which follows the interpreter's set
    iteration order rather than table order); in particular, for the specified
    scenario (chr1 positions 100, 105, 110 pairwise linked at r-squared 0.9
    with p-values 0.01, 0.001, 0.01), `ld_prune` keeps exactly the variant at
    position 105 under every admissible interpreter order. -/
theorem C4_amended_min_rep :
    (∀ (tdf : List Variant) (mem : List Int) (k : VKey),
        repKey? tdf mem = some k →
        ∃ r, r ∈ sRows tdf mem ∧ k = keyOf r ∧
          ∀ x ∈ sRows tdf mem, r.pvalue ≤ x.pvalue) ∧
      ∀ (pi : List Int → List Int → List Int), validOrder pi →
        ld_prune pi [("chr1", srcTriple)] tblTriple =
          .ok [⟨"chr1", 105, mkRat 1 1000⟩] := by
  constructor
  · intro tdf mem k h
    exact repKey?_some h
  · intro pi hpi
    have hks : keepChrom pi "chr1" srcTriple tblTriple =
        .ok [(("chr1", 105) : VKey)] := by
      apply keepChrom_ok_iff.mpr
      refine ⟨dTriple, by decide, ?_⟩
      have hiso : isoKeys "chr1" dTriple = [] := by decide
      have htdf : tdfOf "chr1" tblTriple = tblTriple := by decide
      rw [hiso, htdf, repsOf_triple pi hpi]
      rfl
    apply (ld_prune_ok_iff pi [("chr1", srcTriple)] tblTriple _).mpr
    refine ⟨[[(("chr1", 105) : VKey)]], ?_, ?_⟩
    · exact List.Forall₂.cons hks List.Forall₂.nil
    · decide

/-- Witness for the amended C4: instantiation at the concrete interpreter
    order `ordIdx` and at the scenario's computed representative. -/
theorem C4_witness :
    (∃ r, r ∈ sRows tblTriple [100, 105, 110] ∧
        (("chr1", 105) : VKey) = keyOf r ∧
        ∀ x ∈ sRows tblTriple [100, 105, 110], r.pvalue ≤ x.pvalue) ∧
      ld_prune ordIdx [("chr1", srcTriple)] tblTriple =
        .ok [⟨"chr1", 105, mkRat 1 1000⟩] :=
  ⟨C4_amended_min_rep.1 tblTriple [100, 105, 110] ("chr1", 105) (by decide),
    C4_amended_min_rep.2 ordIdx validOrder_ordIdx⟩

/-- C5 (counterexample).  Positions 100 and 200 of chr1 are each linked at
    r-squared 0.9 only to the non-input position 150.  Were partner-only
    positions vertices of the resolved graph, the two variants would share a
    component and only one would be kept; in fact `ld_prune` keeps both. -/
theorem C5_counterexample :
    ld_prune ordIdx [("chr1", srcVia)] tblVia = .ok tblVia ∧
      (⟨"chr1", 100, mkRat 1 100⟩ : Variant) ∈ tblVia ∧
      (⟨"chr1", 200, mkRat 1 50⟩ : Variant) ∈ tblVia :=
  ⟨by decide, by decide, by decide⟩

/-- C5 (amended).  The component graph is restricted to
    `ind = set(t.columns) & set(t.index)` on both axes, so its vertices are
    drawn from the queried input positions only — partner-only positions are
    not vertices at all (hence cannot merge components), and every chosen
    representative is the label of a row of the per-chromosome input
    sub-table. -/
theorem C5_amended_partner_only :
    (∀ (pi : List Int → List Int → List Int) (d : LDDict)
        (mem : List Int), mem ∈ compsOf (indOf pi d) (edgeB d) →
        mem ⊆ indOf pi d) ∧
      (∀ (pi : List Int → List Int → List Int), validOrder pi →
        ∀ (d : LDDict) (p : Int), p ∈ indOf pi d →
          p ∈ indexOf d ∧ p ∈ colsOf d) ∧
      (∀ (pi : List Int → List Int → List Int) (tdf : List Variant)
        (d : LDDict) (k : VKey), k ∈ repsOf pi tdf d →
          ∃ r ∈ tdf, k = keyOf r) :=
  ⟨fun _ _ _ h => compsOf_subset _ _ h,
    fun _ hpi d p hp => ((hpi (indexOf d) (colsOf d)).2 p).mp hp,
    fun _ _ _ _ h => mem_repsOf_row h⟩

/-- Witness for the amended C5: at the tie-break fixture's dict, the single
    representative is the label of an input row, and the graph vertex 100 is
    both a queried position and a partner. -/
theorem C5_witness :
    (∃ r ∈ tblTriple, (("chr1", 105) : VKey) = keyOf r) ∧
      ((100 : Int) ∈ indexOf dTriple ∧ (100 : Int) ∈ colsOf dTriple) :=
  ⟨C5_amended_partner_only.2.2 ordIdx tblTriple dTriple ("chr1", 105)
      (by decide),
    C5_amended_partner_only.2.1 ordIdx validOrder_ordIdx dTriple 100
      (by decide)⟩

/-! ## Support for idempotence (C9) -/

theorem exists_forall2 {α β : Type} {r : α → β → Prop} :
    ∀ (l : List α), (∀ a ∈ l, ∃ b, r a b) → ∃ l₂, List.Forall₂ r l l₂ := by
  intro l
  induction l with
  | nil => intro _; exact ⟨[], List.Forall₂.nil⟩
  | cons a rest ih =>
    intro h
    rcases h a (List.mem_cons_self a rest) with ⟨b, hb⟩
    rcases ih (fun x hx => h x (List.mem_cons_of_mem a hx)) with ⟨l₂, hl₂⟩
    exact ⟨b :: l₂, List.Forall₂.cons hb hl₂⟩

theorem connB_eq_of_no_edges (V : List Int) (e : Int → Int → Bool)
    (hno : ∀ a b, a ∈ V → b ∈ V → a ≠ b → e a b = false)
    (hV : V.Nodup) {u v : Int} (hu : u ∈ V)
    (h : connB V e u v = true) : u = v := by
  rw [connB_iff V e hV u hu v] at h
  induction h with
  | refl => rfl
  | tail _ hstep ih =>
    rcases hstep with ⟨hbV, hcV, he⟩
    rename_i b c _
    by_cases hbc : b = c
    · rw [← hbc]; exact ih
    · rw [hno b c hbV hcV hbc] at he
      exact absurd he (by simp)

theorem eq_singleton_of_forall_eq {l : List Int} {x : Int} (hn : l.Nodup)
    (hx : x ∈ l) (hall : ∀ w ∈ l, w = x) : l = [x] := by
  cases l with
  | nil => exact absurd hx (List.not_mem_nil x)
  | cons a rest =>
    have ha : a = x := hall a (List.mem_cons_self a rest)
    have hrest : rest = [] := by
      cases rest with
      | nil => rfl
      | cons b rest' =>
        exfalso
        have hb : b = x := hall b (List.mem_cons_of_mem _
          (List.mem_cons_self b rest'))
        rw [List.nodup_cons] at hn
        apply hn.1
        rw [ha, ← hb]
        exact List.mem_cons_self b rest'
    rw [ha, hrest]

theorem tdf_filter_pos_eq :
    ∀ (tdf : List Variant) (v : Variant),
      ((tdf.map (fun r => r.pos)).Nodup) → v ∈ tdf →
      tdf.filter (fun r => r.pos == v.pos) = [v] := by
  intro tdf
  induction tdf with
  | nil => intro v _ hv; exact absurd hv (List.not_mem_nil v)
  | cons h t ih =>
    intro v hn hv
    simp only [List.map_cons, List.nodup_cons] at hn
    rcases List.mem_cons.mp hv with rfl | hv'
    · have hfil : t.filter (fun r => r.pos == v.pos) = [] := by
        rw [List.filter_eq_nil_iff]
        intro x hx
        simp only [beq_iff_eq]
        intro hc
        exact hn.1 (hc ▸ List.mem_map_of_mem (fun r => r.pos) hx)
      rw [List.filter_cons]
      simp only [beq_self_eq_true, if_true, hfil]
    · have hne : (h.pos == v.pos) = false := by
        simp only [beq_eq_false_iff_ne, ne_eq]
        intro hc
        exact hn.1 (hc ▸ List.mem_map_of_mem (fun r => r.pos) hv')
      rw [List.filter_cons, hne]
      simp only [Bool.false_eq_true, if_false]
      exact ih v hn.2 hv'

theorem tdfOf_filter (c : String) (q : Variant → Bool) (df : List Variant) :
    tdfOf c (df.filter q) = (tdfOf c df).filter q := by
  unfold tdfOf
  rw [List.filter_filter, List.filter_filter]
  congr 1
  funext v
  rw [Bool.and_comm]

theorem nodup_pos_of_chrom_eq :
    ∀ (l : List Variant) (c : String), ((l.map keyOf).Nodup) →
      (∀ v ∈ l, v.chrom = c) → ((l.map (fun v => v.pos)).Nodup) := by
  intro l
  induction l with
  | nil => intro c _ _; simp
  | cons h t ih =>
    intro c hn hc
    simp only [List.map_cons, List.nodup_cons] at hn ⊢
    refine ⟨?_, ih c hn.2 (fun v hv => hc v (List.mem_cons_of_mem _ hv))⟩
    intro hmem
    rcases List.mem_map.mp hmem with ⟨v, hv, hpos⟩
    apply hn.1
    have : keyOf v = keyOf h := by
      unfold keyOf
      rw [hpos, hc v (List.mem_cons_of_mem _ hv),
        hc h (List.mem_cons_self _ _)]
    rw [← this]
    exact List.mem_map_of_mem keyOf hv

theorem nodup_keys_tdfOf (df : List Variant) (c : String)
    (hn : (df.map keyOf).Nodup) : (((tdfOf c df).map keyOf).Nodup) :=
  hn.sublist ((List.filter_sublist df).map keyOf)

theorem nodup_pos_tdfOf (df : List Variant) (c : String)
    (hn : (df.map keyOf).Nodup) :
    (((tdfOf c df).map (fun v => v.pos)).Nodup) := by
  refine nodup_pos_of_chrom_eq (tdfOf c df) c (nodup_keys_tdfOf df c hn) ?_
  intro v hv
  exact (mem_tdfOf.mp hv).2

theorem eq_of_nodup_fst {l : List (String × LDSource)}
    (h : (l.map Prod.fst).Nodup) {x y : String × LDSource}
    (hx : x ∈ l) (hy : y ∈ l) (hfst : x.1 = y.1) : x = y := by
  induction l with
  | nil => exact absurd hx (List.not_mem_nil x)
  | cons a t ih =>
    simp only [List.map_cons, List.nodup_cons] at h
    rcases List.mem_cons.mp hx with rfl | hx'
    · rcases List.mem_cons.mp hy with rfl | hy'
      · rfl
      · exact absurd (hfst ▸ List.mem_map_of_mem Prod.fst hy') h.1
    · rcases List.mem_cons.mp hy with rfl | hy'
      · exact absurd (hfst ▸ List.mem_map_of_mem Prod.fst hx') h.1
      · exact ih h.2 hx' hy'

theorem mem_isoKeys {c : String} {d : LDDict} {k : VKey} :
    k ∈ isoKeys c d ↔
      k.1 = c ∧ k.2 ∈ indexOf d ∧ k.2 ∉ colsOf d := by
  unfold isoKeys
  constructor
  · intro h
    rcases List.mem_map.mp h with ⟨p, hp, hk⟩
    rcases List.mem_filter.mp hp with ⟨hidx, hcond⟩
    refine ⟨by rw [← hk], by rw [← hk]; exact hidx, ?_⟩
    rw [← hk]
    simpa using hcond
  · rintro ⟨h1, h2, h3⟩
    refine List.mem_map.mpr ⟨k.2, ?_, ?_⟩
    · rw [List.mem_filter]
      exact ⟨h2, by simpa using h3⟩
    · rw [← h1]

/-- If the representative label `(c, p)` is produced for some component, then
    `p` is a member position of that component. -/
theorem repKey_pos_mem {tdf : List Variant} {mem : List Int} {k : VKey}
    (h : repKey? tdf mem = some k) : k.2 ∈ mem := by
  rcases repKey?_some h with ⟨r, hr, rfl, _⟩
  exact (mem_sRows.mp hr).2

/-- A singleton-row component yields that row's label as representative. -/
theorem repKey_singleton {tdf : List Variant} {mem : List Int} {v : Variant}
    (h : sRows tdf mem = [v]) : repKey? tdf mem = some (keyOf v) := by
  unfold repKey?
  rw [h]
  show (match listMinQ [v.pvalue] with
    | none => none
    | some m => (([v] : List Variant).find?
        (fun r => r.pvalue == m)).map keyOf) = some (keyOf v)
  have : listMinQ [v.pvalue] = some v.pvalue := rfl
  rw [this]
  simp [List.find?]

theorem edgeB_symm (d : LDDict) (u v : Int) : edgeB d u v = edgeB d v u := by
  unfold edgeB
  rw [Bool.or_comm]

theorem compsOf_nodup (V : List Int) (e : Int → Int → Bool) (hV : V.Nodup)
    {mem : List Int} (h : mem ∈ compsOf V e) : mem.Nodup := by
  rcases (mem_compsOf_iff V e).mp h with ⟨r, _, rfl⟩
  exact hV.filter _

/-- Core of the idempotence argument, per chromosome: rerunning the
    per-chromosome processing on the surviving rows contributes every
    survivor's key again. -/
theorem keep_round2 (pi1 pi2 : List Int → List Int → List Int)
    (hpi1 : validOrder pi1) (hpi2 : validOrder pi2) (c : String)
    (f : LDSource) (tdf1 tdf2 : List Variant) (hsub : tdf2 ⊆ tdf1)
    (hchrom1 : ∀ w ∈ tdf1, w.chrom = c)
    (hn1 : (tdf1.map (fun v => v.pos)).Nodup)
    (hn2 : (tdf2.map (fun v => v.pos)).Nodup)
    (d1 d2 : LDDict)
    (hd1 : ld_d_of f c tdf1 = .ok d1) (hd2 : ld_d_of f c tdf2 = .ok d2)
    (hkeep1 : ∀ w ∈ tdf2, keyOf w ∈ isoKeys c d1 ++ repsOf pi1 tdf1 d1)
    (v : Variant) (hv : v ∈ tdf2) :
    keyOf v ∈ isoKeys c d2 ++ repsOf pi2 tdf2 d2 := by
  have hall1 := ld_d_of_ok f c tdf1 d1 hn1 hd1
  have hall2 := ld_d_of_ok f c tdf2 d2 hn2 hd2
  have hidx1 : indexOf d1 = tdf1.map (fun v => v.pos) :=
    indexOf_eq_of_char hall1
  have hidx2 : indexOf d2 = tdf2.map (fun v => v.pos) :=
    indexOf_eq_of_char hall2
  have hV1nodup : (indOf pi1 d1).Nodup := (hpi1 _ _).1
  have hV2nodup : (indOf pi2 d2).Nodup := (hpi2 _ _).1
  have hV1iff : ∀ p, p ∈ indOf pi1 d1 ↔
      p ∈ indexOf d1 ∧ p ∈ colsOf d1 := fun p => (hpi1 _ _).2 p
  have hV2iff : ∀ p, p ∈ indOf pi2 d2 ↔
      p ∈ indexOf d2 ∧ p ∈ colsOf d2 := fun p => (hpi2 _ _).2 p
  have hrow2 : ∀ p ∈ indexOf d2, ∃ w ∈ tdf2, w.pos = p := by
    intro p hp
    rw [hidx2] at hp
    rcases List.mem_map.mp hp with ⟨w, hw, hwp⟩
    exact ⟨w, hw, hwp⟩
  have hget : ∀ w ∈ tdf2, ∀ ps, partners? f c w.pos = .ok ps →
      dictGet d2 w.pos = ps ∧ dictGet d1 w.pos = ps := by
    intro w hw ps hps
    exact ⟨dictGet_of_char hall2 hn2 w hw ps hps,
      dictGet_of_char hall1 hn1 w (hsub hw) ps hps⟩
  have hpart2 : ∀ w ∈ tdf2, ∃ ps, partners? f c w.pos = .ok ps := by
    intro w hw
    rcases forall2_mem_left hall2 w hw with ⟨ent, _, _, hps⟩
    exact ⟨ent.2, hps⟩
  have hcols21 : ∀ q ∈ colsOf d2, q ∈ colsOf d1 := by
    intro q hq
    rcases mem_colsOf.mp hq with ⟨ent2, hent2, hqm⟩
    rcases forall2_mem_right hall2 ent2 hent2 with ⟨u, hu, _, hups⟩
    rcases forall2_mem_left hall1 u (hsub hu) with ⟨ent1, hent1, _, hups1⟩
    rw [hups] at hups1
    refine mem_colsOf.mpr ⟨ent1, hent1, ?_⟩
    rw [← Except.ok.inj hups1]
    exact hqm
  have hedge21 : ∀ a b, a ∈ indexOf d2 → b ∈ indexOf d2 →
      edgeB d2 a b = true → edgeB d1 a b = true := by
    intro a b ha hb he
    unfold edgeB at he ⊢
    simp only [Bool.or_eq_true, decide_eq_true_eq] at he ⊢
    rcases hrow2 a ha with ⟨wa, hwa, hwap⟩
    rcases hrow2 b hb with ⟨wb, hwb, hwbp⟩
    rcases hpart2 wa hwa with ⟨psa, hpsa⟩
    rcases hpart2 wb hwb with ⟨psb, hpsb⟩
    rcases hget wa hwa psa hpsa with ⟨hga2, hga1⟩
    rcases hget wb hwb psb hpsb with ⟨hgb2, hgb1⟩
    rw [hwap] at hga2 hga1
    rw [hwbp] at hgb2 hgb1
    rcases he with he | he
    · rw [hga2] at he
      rw [hga1]
      exact Or.inl he
    · rw [hgb2] at he
      rw [hgb1]
      exact Or.inr he
  have hkey : ∀ p ∈ indexOf d2, (c, p) ∈ isoKeys c d1 ++
      repsOf pi1 tdf1 d1 ∧ p ∈ indexOf d1 := by
    intro p hp
    rcases hrow2 p hp with ⟨w, hw, hwp⟩
    have hwc : w.chrom = c := hchrom1 w (hsub hw)
    have hkw := hkeep1 w hw
    have hkeq : keyOf w = (c, p) := by
      unfold keyOf
      rw [hwc, hwp]
    rw [hkeq] at hkw
    refine ⟨hkw, ?_⟩
    rw [hidx1, ← hwp]
    exact List.mem_map_of_mem (fun v => v.pos) (hsub hw)
  have hnoedge2 : ∀ a b, a ∈ indOf pi2 d2 → b ∈ indOf pi2 d2 → a ≠ b →
      edgeB d2 a b = false := by
    intro a b ha hb hne
    by_contra hc
    have he2 : edgeB d2 a b = true := by
      cases hval : edgeB d2 a b
      · exact absurd hval hc
      · rfl
    rcases (hV2iff a).mp ha with ⟨haidx, hacols⟩
    rcases (hV2iff b).mp hb with ⟨hbidx, hbcols⟩
    have he1 : edgeB d1 a b = true := hedge21 a b haidx hbidx he2
    rcases hkey a haidx with ⟨hka, haidx1⟩
    rcases hkey b hbidx with ⟨hkb, hbidx1⟩
    have haV1 : a ∈ indOf pi1 d1 :=
      (hV1iff a).mpr ⟨haidx1, hcols21 a hacols⟩
    have hbV1 : b ∈ indOf pi1 d1 :=
      (hV1iff b).mpr ⟨hbidx1, hcols21 b hbcols⟩
    have hanoiso : (c, a) ∉ isoKeys c d1 := by
      intro hmem
      exact (mem_isoKeys.mp hmem).2.2 (hcols21 a hacols)
    have hbnoiso : (c, b) ∉ isoKeys c d1 := by
      intro hmem
      exact (mem_isoKeys.mp hmem).2.2 (hcols21 b hbcols)
    have hareps : ((c, a) : VKey) ∈ repsOf pi1 tdf1 d1 := by
      rcases List.mem_append.mp hka with h | h
      · exact absurd h hanoiso
      · exact h
    have hbreps : ((c, b) : VKey) ∈ repsOf pi1 tdf1 d1 := by
      rcases List.mem_append.mp hkb with h | h
      · exact absurd h hbnoiso
      · exact h
    rcases List.mem_filterMap.mp hareps with ⟨memA, hmemA, hrepA⟩
    rcases List.mem_filterMap.mp hbreps with ⟨memB, hmemB, hrepB⟩
    have haA : a ∈ memA := repKey_pos_mem hrepA
    have hbB : b ∈ memB := repKey_pos_mem hrepB
    have hbA : b ∈ memA :=
      adj_mem_compsOf (indOf pi1 d1) (edgeB d1) hV1nodup haV1 hbV1 he1
        hmemA haA
    have hAB : memA = memB :=
      compsOf_unique (indOf pi1 d1) (edgeB d1) hV1nodup (edgeB_symm d1)
        hmemA hmemB hbA hbB
    rw [hAB] at hrepA
    rw [hrepA] at hrepB
    exact hne (congrArg Prod.snd (Option.some.inj hrepB))
  have hvidx2 : v.pos ∈ indexOf d2 := by
    rw [hidx2]
    exact List.mem_map_of_mem (fun v => v.pos) hv
  have hvc : v.chrom = c := hchrom1 v (hsub hv)
  by_cases hvcols : v.pos ∈ colsOf d2
  · have hvV2 : v.pos ∈ indOf pi2 d2 := (hV2iff v.pos).mpr ⟨hvidx2, hvcols⟩
    obtain ⟨mem2, hmem2, hvmem2⟩ :=
      exists_mem_compsOf (indOf pi2 d2) (edgeB d2) v.pos hvV2
    have hmem2nodup : mem2.Nodup :=
      compsOf_nodup (indOf pi2 d2) (edgeB d2) hV2nodup hmem2
    have hmemeq : mem2 = [v.pos] := by
      refine eq_singleton_of_forall_eq hmem2nodup hvmem2 ?_
      intro w hw
      exact (connB_eq_of_no_edges (indOf pi2 d2) (edgeB d2) hnoedge2
        hV2nodup hvV2 (comp_members_connB (indOf pi2 d2) (edgeB d2)
          hV2nodup (edgeB_symm d2) hmem2 hvmem2 hw)).symm
    have hsrows : sRows tdf2 mem2 = [v] := by
      rw [hmemeq]
      unfold sRows
      simp only [List.flatMap_cons, List.flatMap_nil, List.append_nil]
      exact tdf_filter_pos_eq tdf2 v hn2 hv
    refine List.mem_append_right _ ?_
    unfold repsOf
    exact List.mem_filterMap.mpr ⟨mem2, hmem2, repKey_singleton hsrows⟩
  · refine List.mem_append_left _ ?_
    refine mem_isoKeys.mpr ⟨?_, ?_, ?_⟩
    · exact hvc
    · exact hvidx2
    · exact hvcols

/-- C9 (confirmed).  `ld_prune` is idempotent on its result set: rerunning it
    on an output table (with per-key-unique rows and per-chromosome-unique
    source entries, the documented invariants) returns that table unchanged,
    for any admissible interpreter set orders in the two runs. -/
theorem C9_prune_idempotent (pi1 pi2 : List Int → List Int → List Int)
    (hpi1 : validOrder pi1) (hpi2 : validOrder pi2)
    (L : List (String × LDSource)) (df out : List Variant)
    (hLn : (L.map Prod.fst).Nodup) (hdfn : (df.map keyOf).Nodup)
    (h1 : ld_prune pi1 L df = .ok out) :
    ld_prune pi2 L out = .ok out := by
  rcases (ld_prune_ok_iff pi1 L df out).mp h1 with ⟨kss1, hall1L, hout⟩
  have hsucc : ∀ cf ∈ L, ∃ ks, keepChrom pi2 cf.1 cf.2 out = .ok ks := by
    intro cf hcf
    rcases forall2_mem_left hall1L cf hcf with ⟨ks1, hks1mem, hks1⟩
    rcases keepChrom_ok_iff.mp hks1 with ⟨d1, hd1, hks1eq⟩
    have hrows : ∀ w ∈ tdfOf cf.1 out,
        ∃ ps, partners? cf.2 cf.1 w.pos = .ok ps := by
      intro w hw
      have hw1 : w ∈ tdfOf cf.1 df := by
        rw [hout, tdfOf_filter] at hw
        exact List.mem_of_mem_filter hw
      exact ld_d_of_forall_ok cf.2 cf.1 (tdfOf cf.1 df) [] d1 hd1 w hw1
    rcases ld_d_of_ok_of_forall cf.2 cf.1 (tdfOf cf.1 out) [] hrows with
      ⟨d2, hd2⟩
    exact ⟨_, keepChrom_ok_iff.mpr ⟨d2, hd2, rfl⟩⟩
  rcases exists_forall2 L hsucc with ⟨kss2, hall2L⟩
  apply (ld_prune_ok_iff pi2 L out out).mpr
  refine ⟨kss2, hall2L, ?_⟩
  symm
  rw [List.filter_eq_self]
  intro v hvout
  simp only [decide_eq_true_eq]
  have hvk1 : keyOf v ∈ kss1.flatten := by
    rw [hout] at hvout
    have := (List.mem_filter.mp hvout).2
    simpa using this
  have hvout' : v ∈ out := hvout
  rcases List.mem_flatten.mp hvk1 with ⟨ks', hks'mem, hvks'⟩
  rcases forall2_mem_right hall1L ks' hks'mem with ⟨cf, hcf, hkc⟩
  have hvchrom : v.chrom = cf.1 := mem_keepChrom_fst hkc (keyOf v) hvks'
  rcases forall2_mem_left hall2L cf hcf with ⟨ks2, hks2mem, hks2⟩
  rcases keepChrom_ok_iff.mp hkc with ⟨d1, hd1, hkseq1⟩
  rcases keepChrom_ok_iff.mp hks2 with ⟨d2, hd2, hkseq2⟩
  have hkeep1 : ∀ w ∈ tdfOf cf.1 out,
      keyOf w ∈ isoKeys cf.1 d1 ++ repsOf pi1 (tdfOf cf.1 df) d1 := by
    intro w hw
    have hwout : w ∈ out := (mem_tdfOf.mp hw).1
    have hwk1 : keyOf w ∈ kss1.flatten := by
      rw [hout] at hwout
      have := (List.mem_filter.mp hwout).2
      simpa using this
    rcases List.mem_flatten.mp hwk1 with ⟨ks'', hks''mem, hwks''⟩
    rcases forall2_mem_right hall1L ks'' hks''mem with ⟨cf', hcf', hkc'⟩
    have hwchrom : w.chrom = cf'.1 := mem_keepChrom_fst hkc' (keyOf w) hwks''
    have hcf'c : cf'.1 = cf.1 := by
      rw [← hwchrom]
      exact (mem_tdfOf.mp hw).2
    have hcfeq : cf' = cf := eq_of_nodup_fst hLn hcf' hcf hcf'c
    rw [hcfeq, hkc] at hkc'
    have hkseq : ks'' = ks' := (Except.ok.inj hkc').symm
    rw [hkseq, hkseq1] at hwks''
    exact hwks''
  have houtn : (out.map keyOf).Nodup := by
    rw [hout]
    exact hdfn.sublist ((List.filter_sublist df).map keyOf)
  have hn1 := nodup_pos_tdfOf df cf.1 hdfn
  have hn2 := nodup_pos_tdfOf out cf.1 houtn
  have hsub : tdfOf cf.1 out ⊆ tdfOf cf.1 df := by
    rw [hout, tdfOf_filter]
    exact List.filter_subset' _
  have hchrom1 : ∀ w ∈ tdfOf cf.1 df, w.chrom = cf.1 :=
    fun w hw => (mem_tdfOf.mp hw).2
  have hvt2 : v ∈ tdfOf cf.1 out := mem_tdfOf.mpr ⟨hvout', hvchrom⟩
  have hres := keep_round2 pi1 pi2 hpi1 hpi2 cf.1 cf.2 (tdfOf cf.1 df)
    (tdfOf cf.1 out) hsub hchrom1 hn1 hn2 d1 d2 hd1 hd2 hkeep1 v hvt2
  rw [← hkseq2] at hres
  exact List.mem_flatten.mpr ⟨ks2, hks2mem, hres⟩

/-- Witness for C9: rerunning `ld_prune` on the pruned tie-break scenario is
    the identity. -/
theorem C9_witness :
    ld_prune ordIdx [("chr1", srcTriple)]
      [⟨"chr1", 105, mkRat 1 1000⟩] =
      .ok [⟨"chr1", 105, mkRat 1 1000⟩] :=
  C9_prune_idempotent ordIdx ordIdx validOrder_ordIdx validOrder_ordIdx
    [("chr1", srcTriple)] tblTriple [⟨"chr1", 105, mkRat 1 1000⟩]
    (by decide) (by decide) (by decide)

/-- C10 (confirmed).  For a chromosome `c` with an LD source, an input variant
    on `c` is kept through the isolated branch (`set(t.index) -
    set(t.columns)`, bypassing component resolution) exactly when its position
    appears in no input variant's qualifying-partner list for `c`; such a
    variant then belongs to the returned table unconditionally, even when its
    own partner list is nonempty (partners outside the input set). -/
theorem C10_auto_keep_iff (pi : List Int → List Int → List Int)
    (L : List (String × LDSource)) (df out : List Variant) (c : String)
    (f : LDSource) (v : Variant) (d : LDDict)
    (hL : (c, f) ∈ L) (hv : v ∈ df) (hchrom : v.chrom = c)
    (hnodup : ((tdfOf c df).map (fun v => v.pos)).Nodup)
    (hd : ld_d_of f c (tdfOf c df) = .ok d)
    (hout : ld_prune pi L df = .ok out) :
    (keyOf v ∈ isoKeys c d ↔
        ¬ ∃ u ∈ tdfOf c df, ∃ ps,
          partners? f c u.pos = .ok ps ∧ v.pos ∈ ps) ∧
      (keyOf v ∈ isoKeys c d → v ∈ out) := by
  have hall := ld_d_of_ok f c (tdfOf c df) d hnodup hd
  have hvtdf : v ∈ tdfOf c df := mem_tdfOf.mpr ⟨hv, hchrom⟩
  have hidx : v.pos ∈ indexOf d := by
    rw [indexOf_eq_of_char hall]
    exact List.mem_map_of_mem (fun v => v.pos) hvtdf
  have hiso_iff : keyOf v ∈ isoKeys c d ↔ v.pos ∉ colsOf d := by
    unfold isoKeys
    constructor
    · intro h
      rcases List.mem_map.mp h with ⟨p, hp, hkey⟩
      have hpv : p = v.pos := congrArg Prod.snd hkey
      rcases List.mem_filter.mp hp with ⟨_, hcond⟩
      rw [hpv] at hcond
      simpa using hcond
    · intro h
      refine List.mem_map.mpr ⟨v.pos, ?_, ?_⟩
      · rw [List.mem_filter]
        exact ⟨hidx, by simpa using h⟩
      · unfold keyOf
        rw [hchrom]
  have hcols_iff : v.pos ∈ colsOf d ↔
      ∃ u ∈ tdfOf c df, ∃ ps,
        partners? f c u.pos = .ok ps ∧ v.pos ∈ ps := by
    rw [mem_colsOf]
    constructor
    · rintro ⟨ent, hent, hmem⟩
      rcases forall2_mem_right hall ent hent with ⟨u, hu, hpos, hps⟩
      exact ⟨u, hu, ent.2, hps, hmem⟩
    · rintro ⟨u, hu, ps, hps, hmem⟩
      rcases forall2_mem_left hall u hu with ⟨ent, hent, hpos, hps'⟩
      rw [hps] at hps'
      refine ⟨ent, hent, ?_⟩
      rw [← Except.ok.inj hps']
      exact hmem
  constructor
  · rw [hiso_iff, hcols_iff]
  · intro hiso
    rcases (ld_prune_ok_iff pi L df out).mp hout with ⟨kss, hallL, rfl⟩
    rcases forall2_mem_left hallL (c, f) hL with ⟨ks, hks, hok⟩
    rcases keepChrom_ok_iff.mp hok with ⟨d', hd', rfl⟩
    rw [hd] at hd'
    cases Except.ok.inj hd'
    rw [List.mem_filter]
    refine ⟨hv, ?_⟩
    have : keyOf v ∈ isoKeys c d ++ repsOf pi (tdfOf c df) d :=
      List.mem_append_left _ hiso
    have hfl : keyOf v ∈ kss.flatten :=
      List.mem_flatten.mpr ⟨_, hks, this⟩
    simpa using hfl

/-- Witness for C10: position 100 of chr1 is linked only to the non-input
    position 500, is listed in nobody's partner list, and is kept. -/
theorem C10_witness :
    ((keyOf (⟨"chr1", 100, mkRat 1 100⟩ : Variant) ∈
          isoKeys "chr1" [(100, [500])] ↔
        ¬ ∃ u ∈ tdfOf "chr1" [⟨"chr1", 100, mkRat 1 100⟩], ∃ ps,
          partners? srcOut "chr1" u.pos = .ok ps ∧ (100 : Int) ∈ ps) ∧
      (keyOf (⟨"chr1", 100, mkRat 1 100⟩ : Variant) ∈
          isoKeys "chr1" [(100, [500])] →
        (⟨"chr1", 100, mkRat 1 100⟩ : Variant) ∈
          [⟨"chr1", 100, mkRat 1 100⟩])) :=
  C10_auto_keep_iff ordIdx [("chr1", srcOut)] [⟨"chr1", 100, mkRat 1 100⟩]
    [⟨"chr1", 100, mkRat 1 100⟩] "chr1" srcOut ⟨"chr1", 100, mkRat 1 100⟩
    [(100, [500])] (List.mem_cons_self _ _) (by decide) (by decide)
    (by decide) (by decide) (by decide)

end Cdpybio
